import Mathlib

/-!
# ASCIIBIN: a table-driven 7-bit text/binary codec

A shallow embedding of `ASCIIBIN.c` (with the declarations of `asciibin.h` and
`lookup_table.h`) and the properties of its conversion routines.

Conventions of the embedding.

* A `char` is a Lean `Char`; `NUL` is the string terminator.
* A `const char*` argument is an `Option (List Char)`: `none` is the null pointer and
  `some bytes` is a pointer to the bytes `bytes`, which are followed by a terminator
  (reading at or past the end of the list yields `NUL`).  Hence a list without `NUL`
  is exactly the C string with those characters.
* An output pointer is an `Option` holding the current value of the pointee (`none` for
  the null pointer); the function returns the value of the pointee after the call.
* `size_t` values are natural numbers; the product `7 * text_length` and the sum
  `required_length + 1` are reduced modulo `2 ^ 64` as the machine does.  Index
  arithmetic (`i * 7`, `binary_length / 7 + 1`) is bounded by a `size_t` that already
  exists and is left unreduced.
* `malloc` is a parameter: it returns either the null pointer or a fresh block of exactly
  the requested size whose contents are arbitrary.
-/

namespace ASCIIBIN

/-! ## C runtime -/

/-- The string terminator, the character with code 0. -/
def NUL : Char := Char.ofNat 0

/-- The largest `size_t` of a 64-bit platform. -/
def SIZE_MAX : Nat := 2 ^ 64 - 1

/-- The C string stored at a pointer: the characters before the first terminator. -/
def cstr : List Char → List Char
  | [] => []
  | c :: cs => if c = NUL then [] else c :: cstr cs

/-- Library function `strlen`: the number of characters before the first terminator. -/
def strlen (s : List Char) : Nat := (cstr s).length

/-- Library function `strncpy(dest, src, n)`, as the `n` bytes it stores at `dest`:
the characters of `src` up to its terminator, at most `n` of them, then `NUL` padding. -/
def strncpy : List Char → Nat → List Char
  | _, 0 => []
  | [], n + 1 => List.replicate (n + 1) NUL
  | c :: cs, n + 1 => if c = NUL then List.replicate (n + 1) NUL else c :: strncpy cs n

/-- Store the bytes `data` at offset `off` of the block `mem`. -/
def memwrite (mem : List Char) (off : Nat) (data : List Char) : List Char :=
  mem.take off ++ data ++ mem.drop (off + data.length)

/-- Library function `malloc`: the null pointer, or a fresh block of exactly the
requested size with arbitrary contents. -/
structure Allocator where
  /-- The block returned for a request of the given size, `none` for the null pointer. -/
  malloc : Nat → Option (List Char)
  /-- A returned block has the requested size. -/
  malloc_size : ∀ n buf, malloc n = some buf → buf.length = n

/-! ## Data model (`asciibin.h`, `lookup_table.h`) -/

/-- Error codes of the library, in the order of the C enumeration (values 0 to 4). -/
inductive ASCIIBIN_ErrorCode
  | ASCIIBIN_SUCCESS
  | ASCIIBIN_ERROR_NULL_POINTER
  | ASCIIBIN_ERROR_INVALID_INPUT
  | ASCIIBIN_ERROR_MEMORY
  | ASCIIBIN_ERROR_NOT_FOUND
  deriving DecidableEq, Repr

open ASCIIBIN_ErrorCode

/-- One entry of the lookup table: `binary` is the string held in `char binary[8]`
and `ascii` the character held in `char ascii[2]`. -/
structure LookupEntry where
  /-- The code: the string stored in the field `binary`. -/
  binary : List Char
  /-- The character: `ascii[0]`. -/
  ascii : Char
  deriving DecidableEq, Repr

/-- Modelled from the spec: the body of `find_ascii_in_table` (file `lookup_table.c`) and
the table it scans are not among the sources; only the declaration in `lookup_table.h` is.
The table is a parameter.  Following the spec (exact match on the character field, in table
order) the first entry whose character is `ascii_char` is selected and its code is stored in
the buffer as a terminated string; the result is 1 if an entry was found and 0 otherwise,
in which case the buffer is untouched. -/
def find_ascii_in_table (table : List LookupEntry) (ascii_char : Char)
    (binary_buffer : List Char) : Int × List Char :=
  match table.find? (fun e => e.ascii == ascii_char) with
  | some e => (1, memwrite binary_buffer 0 (e.binary ++ [NUL]))
  | none => (0, binary_buffer)

/-- Modelled from the spec: the body of `find_binary_in_table` (file `lookup_table.c`) is
not among the sources; only the declaration in `lookup_table.h` is.  Following the spec
(string equality on the code field, no alphabet check, in table order) the first entry
whose code equals the string at `binary_string` is selected and its character stored
through `ascii_char`; the result is 1 if an entry was found and 0 otherwise, in which case
the pointee is untouched. -/
def find_binary_in_table (table : List LookupEntry) (binary_string : List Char)
    (ascii_char : Char) : Int × Char :=
  match table.find? (fun e => e.binary == cstr binary_string) with
  | some e => (1, e.ascii)
  | none => (0, ascii_char)

/-- The data-model invariant of the lookup table: every character appears in at most one
entry, the codes are pairwise different, and every code is 7 symbols over '0' and '1'. -/
def TableInvariant (table : List LookupEntry) : Prop :=
  (table.map LookupEntry.ascii).Nodup ∧ (table.map LookupEntry.binary).Nodup ∧
    ∀ e ∈ table, e.binary.length = 7 ∧ ∀ c ∈ e.binary, c = '0' ∨ c = '1'

/-- The character has a table entry. -/
def HasEntry (table : List LookupEntry) (c : Char) : Prop :=
  ∃ e ∈ table, e.ascii = c

/-- Some table entry has this code. -/
def HasCode (table : List LookupEntry) (code : List Char) : Prop :=
  ∃ e ∈ table, e.binary = code

/-! ## The codec (`ASCIIBIN.c`) -/

/-- The loop of `is_valid_binary_string`: `k` iterations remain, the index is `i`. -/
def is_valid_binary_loop (binary_string : List Char) : Nat → Nat → Int
  | 0, _ => 1
  | k + 1, i =>
    if binary_string.getD i NUL ≠ '0' ∧ binary_string.getD i NUL ≠ '1' then 0
    else is_valid_binary_loop binary_string k (i + 1)

/-- Function `is_valid_binary_string(binary_string, length)`. -/
def is_valid_binary_string (binary_string : Option (List Char)) (length : Nat) : Int :=
  match binary_string with
  | none => 0
  | some s => is_valid_binary_loop s length 0

/-- Function `ascii_to_binary_char(ascii_char, binary_buffer)`: the error code and the
contents of the buffer after the call. -/
def ascii_to_binary_char (table : List LookupEntry) (ascii_char : Char)
    (binary_buffer : Option (List Char)) : ASCIIBIN_ErrorCode × Option (List Char) :=
  match binary_buffer with
  | none => (ASCIIBIN_ERROR_NULL_POINTER, none)
  | some buf =>
    let found := find_ascii_in_table table ascii_char buf
    if found.1 ≠ 0 then (ASCIIBIN_SUCCESS, some found.2)
    else (ASCIIBIN_ERROR_NOT_FOUND, some found.2)

/-- Function `binary_to_ascii_char(binary_string, ascii_char)`: the error code and the
value of `*ascii_char` after the call. -/
def binary_to_ascii_char (table : List LookupEntry) (binary_string : Option (List Char))
    (ascii_char : Option Char) : ASCIIBIN_ErrorCode × Option Char :=
  match binary_string, ascii_char with
  | some s, some out =>
    if strlen s ≠ 7 then (ASCIIBIN_ERROR_INVALID_INPUT, some out)
    else if is_valid_binary_string (some s) 7 = 0 then (ASCIIBIN_ERROR_INVALID_INPUT, some out)
    else
      let found := find_binary_in_table table s out
      if found.1 ≠ 0 then (ASCIIBIN_SUCCESS, some found.2)
      else (ASCIIBIN_ERROR_NOT_FOUND, some found.2)
  | _, _ => (ASCIIBIN_ERROR_NULL_POINTER, ascii_char)

/-- The conversion loop of `convert_text_to_binary`: `k` iterations remain, the index is
`i`, and `binary` is the current contents of the output block.  The result is `none` when
the loop leaves through `free(binary); return NULL;`.  The local array `binary_char` is
uninitialised in C; it is only read after `ascii_to_binary_char` has stored a string in it. -/
def convert_text_loop (table : List LookupEntry) (text : List Char) :
    Nat → Nat → List Char → Option (List Char)
  | 0, _, binary => some binary
  | k + 1, i, binary =>
    let binary_char := List.replicate 8 NUL
    let result := ascii_to_binary_char table (text.getD i NUL) (some binary_char)
    if result.1 ≠ ASCIIBIN_SUCCESS then none
    else
      convert_text_loop table text k (i + 1)
        (memwrite binary (i * 7) (strncpy (result.2.getD binary_char) 7))

/-- Function `convert_text_to_binary(text, binary_length)`: the returned pointer (`none`
for `NULL`, otherwise the whole block including its terminator) and the value of
`*binary_length` after the call. -/
def convert_text_to_binary (A : Allocator) (table : List LookupEntry)
    (text : Option (List Char)) (binary_length : Option Nat) :
    Option (List Char) × Option Nat :=
  match text, binary_length with
  | some text, some old =>
    let text_length := strlen text
    if text_length > SIZE_MAX / 7 then (none, some old)
    else
      let required_length := (7 * text_length) % 2 ^ 64
      match A.malloc ((required_length + 1) % 2 ^ 64) with
      | none => (none, some old)
      | some binary =>
        match convert_text_loop table text text_length 0 (binary.set required_length NUL) with
        | none => (none, some old)
        | some binary => (some binary, some required_length)
  | _, _ => (none, binary_length)

/-- The conversion loop of `convert_binary_to_text`: `k` iterations remain, the index is
`i`, and `text` is the current contents of the output block.  The local `binary_char` holds
the 7 bytes copied by `strncpy` and the terminator stored at index 7. -/
def convert_binary_loop (table : List LookupEntry) (binary : List Char) :
    Nat → Nat → List Char → Option (List Char)
  | 0, _, text => some text
  | k + 1, i, text =>
    let binary_char := strncpy (binary.drop (i * 7)) 7 ++ [NUL]
    let result := binary_to_ascii_char table (some binary_char) (some (text.getD i NUL))
    if result.1 ≠ ASCIIBIN_SUCCESS then none
    else convert_binary_loop table binary k (i + 1) (text.set i (result.2.getD NUL))

/-- Function `convert_binary_to_text(binary, binary_length)`: the returned pointer (`none`
for `NULL`, otherwise the whole block including its terminator). -/
def convert_binary_to_text (A : Allocator) (table : List LookupEntry)
    (binary : Option (List Char)) (binary_length : Nat) : Option (List Char) :=
  match binary with
  | none => none
  | some b =>
    if binary_length % 7 ≠ 0 then none
    else if is_valid_binary_string (some b) binary_length = 0 then none
    else
      let text_length := binary_length / 7
      match A.malloc (text_length + 1) with
      | none => none
      | some text =>
        convert_binary_loop table b text_length 0 (text.set text_length NUL)

/-- The integer value of an error code in the C enumeration. -/
def ASCIIBIN_ErrorCode.toInt : ASCIIBIN_ErrorCode → Int
  | ASCIIBIN_SUCCESS => 0
  | ASCIIBIN_ERROR_NULL_POINTER => 1
  | ASCIIBIN_ERROR_INVALID_INPUT => 2
  | ASCIIBIN_ERROR_MEMORY => 3
  | ASCIIBIN_ERROR_NOT_FOUND => 4

/-- The static array `error_messages` of `ASCIIBIN.c`. -/
def error_messages : List String :=
  ["Success",
   "NULL pointer provided",
   "Invalid input format",
   "Memory allocation failed",
   "Character not found in lookup table"]

/-- Function `asciibin_get_error_message(error_code)`.  The argument is the integer value
passed for the enumeration, which in C may be any integer.  The bound
`sizeof(error_messages) / sizeof(char*)` is the number of elements of the array.  The
comparison with that `size_t` bound converts `error_code` to `size_t`; it is evaluated only
when `error_code >= 0` holds, where the conversion keeps the value.  The result is `none` if
the array is read outside its bounds. -/
def asciibin_get_error_message (error_code : Int) : Option String :=
  if error_code ≥ 0 ∧ error_code < (error_messages.length : Int) then
    error_messages[error_code.toNat]?
  else some "Unknown error"

/-! ## Functional descriptions of the two conversion loops -/

/-- The 7 bytes that `strncpy(&binary[i * 7], binary_char, 7)` stores for a table entry:
its code as left in `binary_char` by the lookup, cut or `NUL`-padded to 7 bytes. -/
def code_chunk (e : LookupEntry) : List Char := strncpy (e.binary ++ [NUL]) 7

/-- Left-to-right encoding of the characters `text[i], ..., text[i + k - 1]`: the
concatenation of the 7-byte chunks of their table entries, or `none` if one of them has no
entry. -/
def encode_chars (table : List LookupEntry) (text : List Char) : Nat → Nat → Option (List Char)
  | 0, _ => some []
  | k + 1, i =>
    match table.find? (fun e => e.ascii == text.getD i NUL) with
    | none => none
    | some e => (encode_chars table text k (i + 1)).map (fun cs => code_chunk e ++ cs)

/-- The `i`-th 7-symbol chunk of a binary string. -/
def chunk (binary : List Char) (i : Nat) : List Char := (binary.drop (i * 7)).take 7

/-- Left-to-right decoding of the chunks `i, ..., i + k - 1` of a binary string: the
characters of their table entries, or `none` if one of the chunks is not a code of the
table. -/
def decode_chunks (table : List LookupEntry) (binary : List Char) :
    Nat → Nat → Option (List Char)
  | 0, _ => some []
  | k + 1, i =>
    match table.find? (fun e => e.binary == chunk binary i) with
    | none => none
    | some e => (decode_chunks table binary k (i + 1)).map (fun cs => e.ascii :: cs)

/-! ## Sample data -/

/-- An allocator that always succeeds and hands out blocks filled with `'?'`. -/
def sampleAllocator : Allocator where
  malloc := fun n => some (List.replicate n '?')
  malloc_size := by
    intro n buf h
    simp only [Option.some.injEq] at h
    subst h
    simp

/-- A three-entry table with the 7-bit ASCII codes of 'A', 'B' and '!'. -/
def sampleTable : List LookupEntry :=
  [⟨['1', '0', '0', '0', '0', '0', '1'], 'A'⟩,
   ⟨['1', '0', '0', '0', '0', '1', '0'], 'B'⟩,
   ⟨['0', '1', '0', '0', '0', '0', '1'], '!'⟩]

/-- An allocator that always returns the null pointer. -/
def failingAllocator : Allocator where
  malloc := fun _ => none
  malloc_size := by
    intro n buf h
    simp at h

/-- An allocator that serves requests of at most 3 bytes and returns the null pointer for
larger ones. -/
def smallAllocator : Allocator where
  malloc := fun n => if n ≤ 3 then some (List.replicate n '?') else none
  malloc_size := by
    intro n buf h
    by_cases hn : n ≤ 3
    · simp only [if_pos hn, Option.some.injEq] at h
      subst h
      simp
    · simp [if_neg hn] at h

/-! ## Lemmas on the C runtime -/

theorem zero_ne_NUL : '0' ≠ NUL := by decide

theorem one_ne_NUL : '1' ≠ NUL := by decide

theorem cstr_eq_self (s : List Char) (h : ∀ c ∈ s, c ≠ NUL) : cstr s = s := by
  induction s with
  | nil => rfl
  | cons a t ih =>
    have ha : a ≠ NUL := h a (List.mem_cons_self a t)
    have ht : ∀ c ∈ t, c ≠ NUL := fun c hc => h c (List.mem_cons_of_mem a hc)
    simp [cstr, ha, ih ht]

theorem cstr_append_NUL (s t : List Char) (h : ∀ c ∈ s, c ≠ NUL) :
    cstr (s ++ NUL :: t) = s := by
  induction s with
  | nil => simp [cstr]
  | cons a u ih =>
    have ha : a ≠ NUL := h a (List.mem_cons_self a u)
    have hu : ∀ c ∈ u, c ≠ NUL := fun c hc => h c (List.mem_cons_of_mem a hc)
    simp [cstr, ha, ih hu]

theorem mem_cstr_ne_NUL (s : List Char) : ∀ c ∈ cstr s, c ≠ NUL := by
  induction s with
  | nil => simp [cstr]
  | cons a t ih =>
    intro c hc
    by_cases ha : a = NUL
    · simp [cstr, ha] at hc
    · simp only [cstr, ha, if_false, List.mem_cons] at hc
      rcases hc with rfl | hc
      · exact ha
      · exact ih c hc

theorem getD_cstr (s : List Char) (i : Nat) (h : i < strlen s) :
    (cstr s).getD i NUL = s.getD i NUL := by
  induction s generalizing i with
  | nil => simp [strlen, cstr] at h
  | cons a t ih =>
    by_cases ha : a = NUL
    · simp [strlen, cstr, ha] at h
    · cases i with
      | zero => simp [cstr, ha]
      | succ j =>
        have hj : j < strlen t := by
          simp only [strlen, cstr, ha, if_false, List.length_cons] at h
          simpa [strlen] using h
        simpa [cstr, ha] using ih j hj

theorem getD_ne_NUL_of_lt_strlen (s : List Char) (i : Nat) (h : i < strlen s) :
    s.getD i NUL ≠ NUL := by
  rw [← getD_cstr s i h]
  have hi : i < (cstr s).length := h
  rw [List.getD_eq_getElem _ _ hi]
  exact mem_cstr_ne_NUL s _ (List.getElem_mem hi)

theorem strlen_eq_length (s : List Char) (h : ∀ c ∈ s, c ≠ NUL) : strlen s = s.length := by
  simp [strlen, cstr_eq_self s h]

theorem strncpy_length (s : List Char) (n : Nat) : (strncpy s n).length = n := by
  induction n generalizing s with
  | zero => cases s <;> simp [strncpy]
  | succ m ih =>
    cases s with
    | nil => simp [strncpy]
    | cons a t =>
      by_cases ha : a = NUL
      · simp [strncpy, ha]
      · simp [strncpy, ha, ih]

theorem strncpy_append (s t : List Char) (h : ∀ c ∈ s, c ≠ NUL) :
    strncpy (s ++ t) s.length = s := by
  induction s with
  | nil => cases t <;> simp [strncpy]
  | cons a u ih =>
    have ha : a ≠ NUL := h a (List.mem_cons_self a u)
    have hu : ∀ c ∈ u, c ≠ NUL := fun c hc => h c (List.mem_cons_of_mem a hc)
    simp [strncpy, ha, ih hu]

theorem memwrite_zero (mem data : List Char) (h : mem.length ≤ data.length) :
    memwrite mem 0 data = data := by
  simp [memwrite, List.drop_eq_nil_of_le h]

/-! ## Lemmas on the validator -/

theorem is_valid_binary_loop_eq_one_iff (s : List Char) (k i : Nat) :
    is_valid_binary_loop s k i = 1 ↔
      ∀ j, i ≤ j → j < i + k → s.getD j NUL = '0' ∨ s.getD j NUL = '1' := by
  induction k generalizing i with
  | zero =>
    simp only [is_valid_binary_loop, true_iff]
    intro j h1 h2
    omega
  | succ k ih =>
    by_cases hbad : s.getD i NUL ≠ '0' ∧ s.getD i NUL ≠ '1'
    · rw [is_valid_binary_loop, if_pos hbad]
      constructor
      · intro h
        exact absurd h (by decide)
      · intro h
        rcases h i (le_refl i) (by omega) with h0 | h1
        · exact absurd h0 hbad.1
        · exact absurd h1 hbad.2
    · rw [is_valid_binary_loop, if_neg hbad, ih (i + 1)]
      constructor
      · intro h j h1 h2
        by_cases hj : j = i
        · subst hj
          by_cases h0 : s.getD j NUL = '0'
          · exact Or.inl h0
          · by_cases h1 : s.getD j NUL = '1'
            · exact Or.inr h1
            · exact absurd ⟨h0, h1⟩ hbad
        · exact h j (by omega) (by omega)
      · intro h j h1 h2
        exact h j (by omega) (by omega)

theorem is_valid_binary_loop_zero_or_one (s : List Char) (k i : Nat) :
    is_valid_binary_loop s k i = 0 ∨ is_valid_binary_loop s k i = 1 := by
  induction k generalizing i with
  | zero => exact Or.inr rfl
  | succ k ih =>
    by_cases hbad : s.getD i NUL ≠ '0' ∧ s.getD i NUL ≠ '1'
    · left
      rw [is_valid_binary_loop, if_pos hbad]
    · rw [is_valid_binary_loop, if_neg hbad]
      exact ih (i + 1)

theorem is_valid_binary_string_eq_zero_iff (s : List Char) (n : Nat) :
    is_valid_binary_string (some s) n = 0 ↔
      ∃ j, j < n ∧ s.getD j NUL ≠ '0' ∧ s.getD j NUL ≠ '1' := by
  simp only [is_valid_binary_string]
  constructor
  · intro h
    by_contra hne
    have hall : ∀ j, 0 ≤ j → j < 0 + n → s.getD j NUL = '0' ∨ s.getD j NUL = '1' := by
      intro j _ hj
      by_contra hj2
      exact hne ⟨j, by omega, fun h0 => hj2 (Or.inl h0), fun h1 => hj2 (Or.inr h1)⟩
    rw [(is_valid_binary_loop_eq_one_iff s n 0).mpr hall] at h
    exact absurd h (by decide)
  · rintro ⟨j, hj, h0, h1⟩
    rcases is_valid_binary_loop_zero_or_one s n 0 with h | h
    · exact h
    · rcases (is_valid_binary_loop_eq_one_iff s n 0).mp h j (Nat.zero_le j) (by omega) with h2 | h2
      · exact absurd h2 h0
      · exact absurd h2 h1

/-! ## Lemmas on the lookups -/

theorem bits_ne_NUL (s : List Char) (h : ∀ c ∈ s, c = '0' ∨ c = '1') : ∀ c ∈ s, c ≠ NUL := by
  intro c hc
  rcases h c hc with rfl | rfl
  · exact zero_ne_NUL
  · exact one_ne_NUL

theorem find_ascii_eq_none_iff (table : List LookupEntry) (c : Char) :
    table.find? (fun e => e.ascii == c) = none ↔ ¬ HasEntry table c := by
  simp [HasEntry, List.find?_eq_none]

theorem find_ascii_eq_some (table : List LookupEntry) (c : Char) (e : LookupEntry)
    (h : table.find? (fun e => e.ascii == c) = some e) : e ∈ table ∧ e.ascii = c := by
  refine ⟨List.mem_of_find?_eq_some h, ?_⟩
  simpa using List.find?_some h

theorem find_ascii_of_hasEntry (table : List LookupEntry) (c : Char) (h : HasEntry table c) :
    ∃ e, table.find? (fun e => e.ascii == c) = some e ∧ e ∈ table ∧ e.ascii = c := by
  cases hf : table.find? (fun e => e.ascii == c) with
  | none => exact absurd h ((find_ascii_eq_none_iff table c).mp hf)
  | some e => exact ⟨e, rfl, find_ascii_eq_some table c e hf⟩

theorem find_binary_eq_none_iff (table : List LookupEntry) (code : List Char) :
    table.find? (fun e => e.binary == code) = none ↔ ¬ HasCode table code := by
  simp [HasCode, List.find?_eq_none]

theorem find_binary_eq_some (table : List LookupEntry) (code : List Char) (e : LookupEntry)
    (h : table.find? (fun e => e.binary == code) = some e) : e ∈ table ∧ e.binary = code := by
  refine ⟨List.mem_of_find?_eq_some h, ?_⟩
  simpa using List.find?_some h

theorem find_binary_of_mem (table : List LookupEntry) (e : LookupEntry)
    (hnd : (table.map LookupEntry.binary).Nodup) (he : e ∈ table) :
    table.find? (fun x => x.binary == e.binary) = some e := by
  induction table with
  | nil => simp at he
  | cons a t ih =>
    rw [List.map_cons, List.nodup_cons] at hnd
    by_cases hae : a = e
    · subst hae
      simp
    · have het : e ∈ t := by
        rcases List.mem_cons.mp he with h | h
        · exact absurd h.symm hae
        · exact h
      have hne : ¬ a.binary = e.binary := by
        intro hab
        exact hnd.1 (hab ▸ List.mem_map_of_mem LookupEntry.binary het)
      rw [List.find?_cons_of_neg]
      · exact ih hnd.2 het
      · simpa using hne

theorem find_ascii_of_mem (table : List LookupEntry) (e : LookupEntry)
    (hnd : (table.map LookupEntry.ascii).Nodup) (he : e ∈ table) :
    table.find? (fun x => x.ascii == e.ascii) = some e := by
  induction table with
  | nil => simp at he
  | cons a t ih =>
    rw [List.map_cons, List.nodup_cons] at hnd
    by_cases hae : a = e
    · subst hae
      simp
    · have het : e ∈ t := by
        rcases List.mem_cons.mp he with h | h
        · exact absurd h.symm hae
        · exact h
      have hne : ¬ a.ascii = e.ascii := by
        intro hab
        exact hnd.1 (hab ▸ List.mem_map_of_mem LookupEntry.ascii het)
      rw [List.find?_cons_of_neg]
      · exact ih hnd.2 het
      · simpa using hne

/-! ## Lemmas on the single-character conversions -/

theorem ascii_to_binary_char_of_find_some (table : List LookupEntry) (c : Char)
    (buf : List Char) (e : LookupEntry)
    (h : table.find? (fun e => e.ascii == c) = some e) :
    ascii_to_binary_char table c (some buf) =
      (ASCIIBIN_SUCCESS, some (memwrite buf 0 (e.binary ++ [NUL]))) := by
  simp [ascii_to_binary_char, find_ascii_in_table, h]

theorem ascii_to_binary_char_of_find_none (table : List LookupEntry) (c : Char)
    (buf : List Char) (h : table.find? (fun e => e.ascii == c) = none) :
    ascii_to_binary_char table c (some buf) = (ASCIIBIN_ERROR_NOT_FOUND, some buf) := by
  simp [ascii_to_binary_char, find_ascii_in_table, h]

theorem binary_to_ascii_char_invalid (table : List LookupEntry) (s : List Char) (out : Char)
    (h : strlen s ≠ 7 ∨ ∃ j, j < 7 ∧ s.getD j NUL ≠ '0' ∧ s.getD j NUL ≠ '1') :
    binary_to_ascii_char table (some s) (some out) =
      (ASCIIBIN_ERROR_INVALID_INPUT, some out) := by
  by_cases hlen : strlen s ≠ 7
  · simp only [binary_to_ascii_char, if_pos hlen]
  · rcases h with h | h
    · exact absurd h hlen
    · have hv : is_valid_binary_string (some s) 7 = 0 :=
        (is_valid_binary_string_eq_zero_iff s 7).mpr h
      simp only [binary_to_ascii_char, if_neg hlen, if_pos hv]

theorem binary_chars_of_cstr (s : List Char) (hlen : strlen s = 7)
    (hbits : ∀ c ∈ cstr s, c = '0' ∨ c = '1') :
    ¬ is_valid_binary_string (some s) 7 = 0 := by
  rw [is_valid_binary_string_eq_zero_iff]
  rintro ⟨j, hj, h0, h1⟩
  have hjs : j < strlen s := by omega
  have hjl : j < (cstr s).length := hjs
  have hmem : s.getD j NUL ∈ cstr s := by
    rw [← getD_cstr s j hjs, List.getD_eq_getElem _ _ hjl]
    exact List.getElem_mem hjl
  rcases hbits _ hmem with h | h
  · exact h0 h
  · exact h1 h

theorem binary_to_ascii_char_of_find_some (table : List LookupEntry) (s : List Char)
    (out : Char) (e : LookupEntry) (hlen : strlen s = 7)
    (hbits : ∀ c ∈ cstr s, c = '0' ∨ c = '1')
    (h : table.find? (fun e => e.binary == cstr s) = some e) :
    binary_to_ascii_char table (some s) (some out) = (ASCIIBIN_SUCCESS, some e.ascii) := by
  have hv := binary_chars_of_cstr s hlen hbits
  simp [binary_to_ascii_char, hlen, hv, find_binary_in_table, h]

theorem binary_to_ascii_char_of_find_none (table : List LookupEntry) (s : List Char)
    (out : Char) (hlen : strlen s = 7) (hbits : ∀ c ∈ cstr s, c = '0' ∨ c = '1')
    (h : table.find? (fun e => e.binary == cstr s) = none) :
    binary_to_ascii_char table (some s) (some out) = (ASCIIBIN_ERROR_NOT_FOUND, some out) := by
  have hv := binary_chars_of_cstr s hlen hbits
  simp [binary_to_ascii_char, hlen, hv, find_binary_in_table, h]

theorem cstr_code_buffer (code rest : List Char) (hbits : ∀ c ∈ code, c = '0' ∨ c = '1') :
    cstr (code ++ [NUL] ++ rest) = code := by
  rw [List.append_assoc]
  exact cstr_append_NUL code rest (bits_ne_NUL code hbits)

theorem memwrite_zero_eq (mem data : List Char) :
    memwrite mem 0 data = data ++ mem.drop data.length := by
  simp [memwrite]

/-! ## Lemmas on block stores -/

theorem memwrite_length (mem data : List Char) (off : Nat)
    (h : off + data.length ≤ mem.length) : (memwrite mem off data).length = mem.length := by
  simp only [memwrite, List.length_append, List.length_take, List.length_drop]
  omega

theorem memwrite_take (mem data : List Char) (off : Nat)
    (h : off + data.length ≤ mem.length) :
    (memwrite mem off data).take (off + data.length) = mem.take off ++ data := by
  have hlen : (mem.take off ++ data).length = off + data.length := by
    simp only [List.length_append, List.length_take]
    omega
  rw [memwrite, ← hlen]
  exact List.take_left' rfl

theorem memwrite_drop (mem data : List Char) (off n : Nat)
    (h : off + data.length ≤ mem.length) (hn : off + data.length ≤ n) :
    (memwrite mem off data).drop n = mem.drop n := by
  have hlen : (mem.take off ++ data).length = off + data.length := by
    simp only [List.length_append, List.length_take]
    omega
  obtain ⟨m, rfl⟩ : ∃ m, n = (mem.take off ++ data).length + m := ⟨n - (off + data.length), by omega⟩
  rw [memwrite, List.drop_append, List.drop_drop, hlen]

theorem strncpy_append_NUL (s rest : List Char) (n : Nat) :
    strncpy (s ++ NUL :: rest) n = strncpy (s ++ [NUL]) n := by
  induction s generalizing n with
  | nil =>
    cases n with
    | zero => simp [strncpy]
    | succ m => simp [strncpy]
  | cons a t ih =>
    cases n with
    | zero => simp [strncpy]
    | succ m =>
      by_cases ha : a = NUL
      · simp [strncpy, ha]
      · simp [strncpy, ha, ih]

theorem code_chunk_length (e : LookupEntry) : (code_chunk e).length = 7 :=
  strncpy_length _ 7

theorem code_chunk_eq (e : LookupEntry) (hlen : e.binary.length = 7)
    (hnul : ∀ c ∈ e.binary, c ≠ NUL) : code_chunk e = e.binary := by
  have h := strncpy_append e.binary [NUL] hnul
  rw [hlen] at h
  exact h

/-! ## The encoding loop -/

theorem convert_text_loop_eq (table : List LookupEntry) (text : List Char) (k i : Nat)
    (binary : List Char) (hsize : (i + k) * 7 ≤ binary.length) :
    convert_text_loop table text k i binary =
      (encode_chars table text k i).map
        (fun cs => binary.take (i * 7) ++ cs ++ binary.drop ((i + k) * 7)) := by
  induction k generalizing i binary with
  | zero => simp [convert_text_loop, encode_chars]
  | succ k ih =>
    cases hf : table.find? (fun e => e.ascii == text.getD i NUL) with
    | none =>
      simp [-List.getD_eq_getElem?_getD, convert_text_loop, encode_chars, hf,
        ascii_to_binary_char_of_find_none table _ _ hf]
    | some e =>
      have hchunk : ∀ buf : List Char, strncpy (memwrite buf 0 (e.binary ++ [NUL])) 7 =
          code_chunk e := by
        intro buf
        rw [memwrite_zero_eq, List.append_assoc, List.singleton_append, strncpy_append_NUL]
        rfl
      have hstep : convert_text_loop table text (k + 1) i binary =
          convert_text_loop table text k (i + 1) (memwrite binary (i * 7) (code_chunk e)) := by
        simp [-List.getD_eq_getElem?_getD, convert_text_loop, ascii_to_binary_char_of_find_some table _ _ e hf, hchunk]
      have hcl := code_chunk_length e
      have hfit : i * 7 + (code_chunk e).length ≤ binary.length := by
        rw [hcl]
        omega
      have hsize2 : (i + 1 + k) * 7 ≤ (memwrite binary (i * 7) (code_chunk e)).length := by
        rw [memwrite_length _ _ _ hfit]
        omega
      have htake : (memwrite binary (i * 7) (code_chunk e)).take ((i + 1) * 7) =
          binary.take (i * 7) ++ code_chunk e := by
        have := memwrite_take binary (code_chunk e) (i * 7) hfit
        rw [hcl] at this
        rw [← this]
        congr 1
        omega
      have hdrop : (memwrite binary (i * 7) (code_chunk e)).drop ((i + 1 + k) * 7) =
          binary.drop ((i + (k + 1)) * 7) := by
        rw [memwrite_drop binary (code_chunk e) (i * 7) _ hfit (by rw [hcl]; omega)]
        congr 1
        omega
      rw [hstep, ih (i + 1) _ hsize2, htake, hdrop]
      simp only [encode_chars, hf]
      cases encode_chars table text k (i + 1) with
      | none => rfl
      | some cs => simp

theorem encode_chars_eq_none_iff (table : List LookupEntry) (text : List Char) (k i : Nat) :
    encode_chars table text k i = none ↔
      ∃ j, j < k ∧ ¬ HasEntry table (text.getD (i + j) NUL) := by
  induction k generalizing i with
  | zero => simp [encode_chars]
  | succ k ih =>
    cases hf : table.find? (fun e => e.ascii == text.getD i NUL) with
    | none =>
      simp only [encode_chars, hf, true_iff]
      exact ⟨0, Nat.succ_pos k, by simpa using (find_ascii_eq_none_iff table _).mp hf⟩
    | some e =>
      obtain ⟨hmem, hasc⟩ := find_ascii_eq_some table _ e hf
      simp only [encode_chars, hf, Option.map_eq_none', ih (i + 1)]
      constructor
      · rintro ⟨j, hj, hno⟩
        exact ⟨j + 1, by omega, by rwa [show i + (j + 1) = i + 1 + j by omega]⟩
      · rintro ⟨j, hj, hno⟩
        cases j with
        | zero => exact absurd ⟨e, hmem, hasc⟩ hno
        | succ j => exact ⟨j, by omega, by rwa [show i + 1 + j = i + (j + 1) by omega]⟩

theorem encode_chars_length (table : List LookupEntry) (text : List Char) (k i : Nat)
    (cs : List Char) (h : encode_chars table text k i = some cs) : cs.length = 7 * k := by
  induction k generalizing i cs with
  | zero =>
    simp only [encode_chars, Option.some.injEq] at h
    subst h
    rfl
  | succ k ih =>
    cases hf : table.find? (fun e => e.ascii == text.getD i NUL) with
    | none => simp [-List.getD_eq_getElem?_getD, encode_chars, hf] at h
    | some e =>
      simp only [encode_chars, hf, Option.map_eq_some'] at h
      obtain ⟨cs2, hcs2, rfl⟩ := h
      rw [List.length_append, code_chunk_length, ih (i + 1) cs2 hcs2]
      omega

theorem encode_chars_chunk (table : List LookupEntry) (text : List Char) (k i : Nat)
    (cs : List Char) (h : encode_chars table text k i = some cs) (j : Nat) (hj : j < k) :
    ∃ e, table.find? (fun e => e.ascii == text.getD (i + j) NUL) = some e ∧
      chunk cs j = code_chunk e := by
  induction k generalizing i cs j with
  | zero => omega
  | succ k ih =>
    cases hf : table.find? (fun e => e.ascii == text.getD i NUL) with
    | none => simp [-List.getD_eq_getElem?_getD, encode_chars, hf] at h
    | some e =>
      simp only [encode_chars, hf, Option.map_eq_some'] at h
      obtain ⟨cs2, hcs2, rfl⟩ := h
      cases j with
      | zero =>
        refine ⟨e, by simpa using hf, ?_⟩
        simp only [chunk, Nat.zero_mul, List.drop_zero]
        rw [← code_chunk_length e, List.take_left']
        rfl
      | succ j =>
        obtain ⟨e2, hf2, hch⟩ := ih (i + 1) cs2 hcs2 j (by omega)
        refine ⟨e2, by rwa [show i + (j + 1) = i + 1 + j by omega], ?_⟩
        rw [← hch]
        simp only [chunk]
        have : (j + 1) * 7 = (code_chunk e).length + j * 7 := by
          rw [code_chunk_length]
          omega
        rw [this, List.drop_append]

/-! ## The decoding loop -/

theorem getD_drop_eq (s : List Char) (i t : Nat) :
    (s.drop i).getD t NUL = s.getD (i + t) NUL := by
  simp [List.getD_eq_getElem?_getD, List.getElem?_drop]

theorem strncpy_eq_take (s : List Char) (n : Nat) (h : ∀ t, t < n → s.getD t NUL ≠ NUL) :
    strncpy s n = s.take n ∧ n ≤ s.length := by
  induction n generalizing s with
  | zero => cases s <;> simp [strncpy]
  | succ m ih =>
    cases s with
    | nil => exact absurd (by simp) (h 0 (Nat.succ_pos m))
    | cons a u =>
      have ha : a ≠ NUL := by simpa using h 0 (Nat.succ_pos m)
      have hu : ∀ t, t < m → u.getD t NUL ≠ NUL := by
        intro t ht
        simpa using h (t + 1) (by omega)
      obtain ⟨h1, h2⟩ := ih u hu
      constructor
      · simp [strncpy, ha, h1]
      · simp only [List.length_cons]
        omega

theorem chunk_of_valid (binary : List Char) (i : Nat)
    (hv : ∀ t, t < (i + 1) * 7 → binary.getD t NUL = '0' ∨ binary.getD t NUL = '1') :
    strncpy (binary.drop (i * 7)) 7 = chunk binary i ∧ (chunk binary i).length = 7 ∧
      ∀ c ∈ chunk binary i, c = '0' ∨ c = '1' := by
  have hbit : ∀ t, t < 7 →
      (binary.drop (i * 7)).getD t NUL = '0' ∨ (binary.drop (i * 7)).getD t NUL = '1' := by
    intro t ht
    rw [getD_drop_eq]
    exact hv (i * 7 + t) (by omega)
  have hnn : ∀ t, t < 7 → (binary.drop (i * 7)).getD t NUL ≠ NUL := by
    intro t ht
    rcases hbit t ht with h | h
    · rw [h]
      exact zero_ne_NUL
    · rw [h]
      exact one_ne_NUL
  obtain ⟨h1, h2⟩ := strncpy_eq_take (binary.drop (i * 7)) 7 hnn
  have hlen : (chunk binary i).length = 7 := by
    simp only [chunk, List.length_take]
    omega
  refine ⟨h1, hlen, ?_⟩
  intro c hc
  obtain ⟨t, ht, htc⟩ := List.getElem_of_mem hc
  have ht7 : t < 7 := by omega
  have hget : (binary.drop (i * 7)).getD t NUL = c := by
    rw [← htc]
    simp only [chunk, List.getElem_take]
    rw [List.getD_eq_getElem]
  rw [← hget]
  exact hbit t ht7

theorem binary_to_ascii_char_chunk (table : List LookupEntry) (code : List Char) (out : Char)
    (hlen : code.length = 7) (hbits : ∀ c ∈ code, c = '0' ∨ c = '1') :
    binary_to_ascii_char table (some (code ++ [NUL])) (some out) =
      match table.find? (fun e => e.binary == code) with
      | some e => (ASCIIBIN_SUCCESS, some e.ascii)
      | none => (ASCIIBIN_ERROR_NOT_FOUND, some out) := by
  have hc : cstr (code ++ [NUL]) = code := cstr_append_NUL code [] (bits_ne_NUL code hbits)
  have hl : strlen (code ++ [NUL]) = 7 := by rw [strlen, hc, hlen]
  have hb : ∀ c ∈ cstr (code ++ [NUL]), c = '0' ∨ c = '1' := by
    rw [hc]
    exact hbits
  cases hf : table.find? (fun e => e.binary == code) with
  | none =>
    exact binary_to_ascii_char_of_find_none table _ out hl hb (by rw [hc]; exact hf)
  | some e =>
    exact binary_to_ascii_char_of_find_some table _ out e hl hb (by rw [hc]; exact hf)

theorem set_eq_memwrite (mem : List Char) (i : Nat) (c : Char) (h : i < mem.length) :
    mem.set i c = memwrite mem i [c] := by
  rw [List.set_eq_take_append_cons_drop, if_pos h]
  simp [memwrite]

theorem set_last (mem : List Char) (n : Nat) (c : Char) (h : mem.length = n + 1) :
    (mem.set n c).drop n = [c] ∧ (mem.set n c).length = n + 1 := by
  constructor
  · rw [set_eq_memwrite mem n c (by omega)]
    have hl : (mem.take n).length = n := by
      rw [List.length_take]
      omega
    simp only [memwrite, List.append_assoc, List.length_singleton]
    rw [List.drop_append_of_le_length (by omega), List.drop_of_length_le (by omega),
      List.drop_of_length_le (by omega)]
    rfl
  · rw [List.length_set, h]

theorem convert_binary_loop_eq (table : List LookupEntry) (binary : List Char) (k i : Nat)
    (text : List Char) (hsize : i + k ≤ text.length)
    (hv : ∀ t, t < (i + k) * 7 → binary.getD t NUL = '0' ∨ binary.getD t NUL = '1') :
    convert_binary_loop table binary k i text =
      (decode_chunks table binary k i).map
        (fun cs => text.take i ++ cs ++ text.drop (i + k)) := by
  induction k generalizing i text with
  | zero => simp [convert_binary_loop, decode_chunks]
  | succ k ih =>
    obtain ⟨hcopy, hlen, hbits⟩ := chunk_of_valid binary i (fun t ht => hv t (by omega))
    have hconv := fun out => binary_to_ascii_char_chunk table (chunk binary i) out hlen hbits
    cases hf : table.find? (fun e => e.binary == chunk binary i) with
    | none =>
      simp only [hf] at hconv
      simp [-List.getD_eq_getElem?_getD, convert_binary_loop, decode_chunks, hf, hcopy, hconv]
    | some e =>
      simp only [hf] at hconv
      have hstep : convert_binary_loop table binary (k + 1) i text =
          convert_binary_loop table binary k (i + 1) (memwrite text i [e.ascii]) := by
        simp [-List.getD_eq_getElem?_getD, convert_binary_loop, hcopy, hconv,
          set_eq_memwrite text i e.ascii (by omega)]
      have hfit : i + [e.ascii].length ≤ text.length := by
        simp only [List.length_singleton]
        omega
      have hsize2 : i + 1 + k ≤ (memwrite text i [e.ascii]).length := by
        rw [memwrite_length _ _ _ hfit]
        omega
      have htake : (memwrite text i [e.ascii]).take (i + 1) = text.take i ++ [e.ascii] :=
        memwrite_take text [e.ascii] i hfit
      have hdrop : (memwrite text i [e.ascii]).drop (i + 1 + k) = text.drop (i + (k + 1)) := by
        rw [memwrite_drop text [e.ascii] i _ hfit
          (by simp only [List.length_singleton]; omega)]
        congr 1
        omega
      rw [hstep, ih (i + 1) _ hsize2 (fun t ht => hv t (by omega)), htake, hdrop]
      simp only [decode_chunks, hf]
      cases decode_chunks table binary k (i + 1) with
      | none => rfl
      | some cs => simp

theorem decode_chunks_eq_none_iff (table : List LookupEntry) (binary : List Char) (k i : Nat) :
    decode_chunks table binary k i = none ↔
      ∃ j, j < k ∧ ¬ HasCode table (chunk binary (i + j)) := by
  induction k generalizing i with
  | zero => simp [decode_chunks]
  | succ k ih =>
    cases hf : table.find? (fun e => e.binary == chunk binary i) with
    | none =>
      simp only [decode_chunks, hf, true_iff]
      exact ⟨0, Nat.succ_pos k, by simpa using (find_binary_eq_none_iff table _).mp hf⟩
    | some e =>
      obtain ⟨hmem, hcode⟩ := find_binary_eq_some table _ e hf
      simp only [decode_chunks, hf, Option.map_eq_none', ih (i + 1)]
      constructor
      · rintro ⟨j, hj, hno⟩
        exact ⟨j + 1, by omega, by rwa [show i + (j + 1) = i + 1 + j by omega]⟩
      · rintro ⟨j, hj, hno⟩
        cases j with
        | zero => exact absurd ⟨e, hmem, hcode⟩ hno
        | succ j => exact ⟨j, by omega, by rwa [show i + 1 + j = i + (j + 1) by omega]⟩

theorem decode_chunks_length (table : List LookupEntry) (binary : List Char) (k i : Nat)
    (cs : List Char) (h : decode_chunks table binary k i = some cs) : cs.length = k := by
  induction k generalizing i cs with
  | zero =>
    simp only [decode_chunks, Option.some.injEq] at h
    subst h
    rfl
  | succ k ih =>
    cases hf : table.find? (fun e => e.binary == chunk binary i) with
    | none => simp [decode_chunks, hf] at h
    | some e =>
      simp only [decode_chunks, hf, Option.map_eq_some'] at h
      obtain ⟨cs2, hcs2, rfl⟩ := h
      rw [List.length_cons, ih (i + 1) cs2 hcs2]

theorem decode_chunks_getD (table : List LookupEntry) (binary : List Char) (k i : Nat)
    (cs : List Char) (h : decode_chunks table binary k i = some cs) (j : Nat) (hj : j < k) :
    ∃ e, table.find? (fun e => e.binary == chunk binary (i + j)) = some e ∧
      cs.getD j NUL = e.ascii := by
  induction k generalizing i cs j with
  | zero => omega
  | succ k ih =>
    cases hf : table.find? (fun e => e.binary == chunk binary i) with
    | none => simp [decode_chunks, hf] at h
    | some e =>
      simp only [decode_chunks, hf, Option.map_eq_some'] at h
      obtain ⟨cs2, hcs2, rfl⟩ := h
      cases j with
      | zero => exact ⟨e, by simpa using hf, by simp⟩
      | succ j =>
        obtain ⟨e2, hf2, hch⟩ := ih (i + 1) cs2 hcs2 j (by omega)
        refine ⟨e2, by rwa [show i + (j + 1) = i + 1 + j by omega], ?_⟩
        rw [← hch]
        simp

/-! ## The batch conversions in closed form -/

theorem guard_no_wrap (L : Nat) (h : L ≤ SIZE_MAX / 7) :
    (7 * L) % 2 ^ 64 = 7 * L ∧ (7 * L + 1) % 2 ^ 64 = 7 * L + 1 := by
  have h2 : L ≤ 2635249153387078802 := by
    have : SIZE_MAX / 7 = 2635249153387078802 := by decide
    omega
  constructor
  · apply Nat.mod_eq_of_lt
    omega
  · apply Nat.mod_eq_of_lt
    omega

theorem convert_text_to_binary_eq (A : Allocator) (table : List LookupEntry)
    (text : List Char) (old : Nat) (buf : List Char) (hguard : strlen text ≤ SIZE_MAX / 7)
    (halloc : A.malloc (7 * strlen text + 1) = some buf) :
    convert_text_to_binary A table (some text) (some old) =
      match encode_chars table text (strlen text) 0 with
      | none => (none, some old)
      | some cs => (some (cs ++ [NUL]), some (7 * strlen text)) := by
  obtain ⟨hw1, hw2⟩ := guard_no_wrap (strlen text) hguard
  have hlen : buf.length = 7 * strlen text + 1 := A.malloc_size _ _ halloc
  obtain ⟨hlast, hlen2⟩ := set_last buf (7 * strlen text) NUL hlen
  have hloop := convert_text_loop_eq table text (strlen text) 0
    (buf.set (7 * strlen text) NUL) (by rw [hlen2]; omega)
  have hmul : (0 + strlen text) * 7 = 7 * strlen text := by omega
  rw [hmul, hlast] at hloop
  simp only [convert_text_to_binary, if_neg (Nat.not_lt.mpr hguard), hw1, hw2, halloc, hloop]
  cases encode_chars table text (strlen text) 0 with
  | none => rfl
  | some cs => simp

theorem convert_text_to_binary_guard (A : Allocator) (table : List LookupEntry)
    (text : List Char) (old : Nat) (hguard : strlen text > SIZE_MAX / 7) :
    convert_text_to_binary A table (some text) (some old) = (none, some old) := by
  simp only [convert_text_to_binary, if_pos hguard]

theorem convert_text_to_binary_success (A : Allocator) (table : List LookupEntry)
    (text : List Char) (old : Nat) (binary : List Char) (n : Option Nat)
    (hok : convert_text_to_binary A table (some text) (some old) = (some binary, n)) :
    strlen text ≤ SIZE_MAX / 7 ∧ n = some (7 * strlen text) ∧
      ∃ cs, encode_chars table text (strlen text) 0 = some cs ∧ binary = cs ++ [NUL] := by
  by_cases hguard : strlen text > SIZE_MAX / 7
  · rw [convert_text_to_binary_guard A table text old hguard] at hok
    simp at hok
  · have hg : strlen text ≤ SIZE_MAX / 7 := Nat.not_lt.mp hguard
    obtain ⟨hw1, hw2⟩ := guard_no_wrap (strlen text) hg
    cases halloc : A.malloc (7 * strlen text + 1) with
    | none =>
      simp only [convert_text_to_binary, if_neg hguard, hw1, hw2, halloc] at hok
      simp at hok
    | some buf =>
      rw [convert_text_to_binary_eq A table text old buf hg halloc] at hok
      cases henc : encode_chars table text (strlen text) 0 with
      | none =>
        rw [henc] at hok
        simp at hok
      | some cs =>
        rw [henc] at hok
        simp only [Prod.mk.injEq, Option.some.injEq] at hok
        exact ⟨hg, hok.2.symm, cs, rfl, hok.1.symm⟩

theorem convert_binary_to_text_eq (A : Allocator) (table : List LookupEntry)
    (b : List Char) (n : Nat) (buf : List Char) (h7 : n % 7 = 0)
    (hv : ∀ t, t < n → b.getD t NUL = '0' ∨ b.getD t NUL = '1')
    (halloc : A.malloc (n / 7 + 1) = some buf) :
    convert_binary_to_text A table (some b) n =
      (decode_chunks table b (n / 7) 0).map (fun cs => cs ++ [NUL]) := by
  have hlen : buf.length = n / 7 + 1 := A.malloc_size _ _ halloc
  obtain ⟨hlast, hlen2⟩ := set_last buf (n / 7) NUL hlen
  have hvalid : ¬ is_valid_binary_string (some b) n = 0 := by
    rw [is_valid_binary_string_eq_zero_iff]
    rintro ⟨j, hj, h0, h1⟩
    rcases hv j hj with h | h
    · exact h0 h
    · exact h1 h
  have hloop := convert_binary_loop_eq table b (n / 7) 0 (buf.set (n / 7) NUL)
    (by rw [hlen2]; omega) (fun t ht => hv t (by omega))
  rw [Nat.zero_add, hlast] at hloop
  simp only [convert_binary_to_text, h7, ne_eq, not_true_eq_false, if_false, if_neg hvalid,
    halloc, hloop]
  cases decode_chunks table b (n / 7) 0 with
  | none => rfl
  | some cs => simp

theorem convert_binary_to_text_invalid (A : Allocator) (table : List LookupEntry)
    (b : List Char) (n : Nat)
    (h : n % 7 ≠ 0 ∨ ∃ t, t < n ∧ b.getD t NUL ≠ '0' ∧ b.getD t NUL ≠ '1') :
    convert_binary_to_text A table (some b) n = none := by
  by_cases h7 : n % 7 ≠ 0
  · simp only [convert_binary_to_text, if_pos h7]
  · rcases h with h | h
    · exact absurd h h7
    · have hv : is_valid_binary_string (some b) n = 0 :=
        (is_valid_binary_string_eq_zero_iff b n).mpr h
      simp only [convert_binary_to_text, if_neg h7, if_pos hv]

theorem chunk_append_left (cs rest : List Char) (i : Nat) (h : (i + 1) * 7 ≤ cs.length) :
    chunk (cs ++ rest) i = chunk cs i := by
  simp only [chunk]
  rw [List.drop_append_of_le_length (by omega), List.take_append_of_le_length]
  rw [List.length_drop]
  omega

theorem chunk_getD (cs : List Char) (i r : Nat) (hr : r < 7) :
    (chunk cs i).getD r NUL = cs.getD (i * 7 + r) NUL := by
  simp only [chunk, List.getD_eq_getElem?_getD, List.getElem?_take_of_lt hr, List.getElem?_drop]

theorem encode_chars_forall (table : List LookupEntry) (text : List Char) (P : Char → Prop)
    (hP : ∀ e ∈ table, ∀ c ∈ code_chunk e, P c) (k i : Nat) (cs : List Char)
    (h : encode_chars table text k i = some cs) : ∀ c ∈ cs, P c := by
  induction k generalizing i cs with
  | zero =>
    simp only [encode_chars, Option.some.injEq] at h
    subst h
    simp
  | succ k ih =>
    cases hf : table.find? (fun e => e.ascii == text.getD i NUL) with
    | none => simp [-List.getD_eq_getElem?_getD, encode_chars, hf] at h
    | some e =>
      simp only [encode_chars, hf, Option.map_eq_some'] at h
      obtain ⟨cs2, hcs2, rfl⟩ := h
      intro c hc
      rcases List.mem_append.mp hc with hc | hc
      · exact hP e (find_ascii_eq_some table _ e hf).1 c hc
      · exact ih (i + 1) cs2 hcs2 c hc

/-! ## Encoding followed by decoding -/

theorem code_chunk_of_invariant (table : List LookupEntry) (hT : TableInvariant table)
    (e : LookupEntry) (he : e ∈ table) : code_chunk e = e.binary :=
  code_chunk_eq e (hT.2.2 e he).1 (bits_ne_NUL e.binary (hT.2.2 e he).2)

theorem encode_chars_entry (table : List LookupEntry) (hT : TableInvariant table)
    (text : List Char) (k : Nat) (cs rest : List Char)
    (henc : encode_chars table text k 0 = some cs) (j : Nat) (hj : j < k) :
    ∃ e ∈ table, e.ascii = text.getD j NUL ∧ chunk (cs ++ rest) j = e.binary ∧
      table.find? (fun x => x.binary == chunk (cs ++ rest) j) = some e := by
  obtain ⟨e, hf, hch⟩ := encode_chars_chunk table text k 0 cs henc j hj
  rw [Nat.zero_add] at hf
  obtain ⟨hmem, hasc⟩ := find_ascii_eq_some table _ e hf
  have hlen := encode_chars_length table text k 0 cs henc
  have hchunk : chunk (cs ++ rest) j = e.binary := by
    rw [chunk_append_left cs rest j (by omega), hch, code_chunk_of_invariant table hT e hmem]
  refine ⟨e, hmem, hasc, hchunk, ?_⟩
  rw [hchunk]
  exact find_binary_of_mem table e hT.2.1 hmem

theorem encode_chars_bits (table : List LookupEntry) (hT : TableInvariant table)
    (text : List Char) (k i : Nat) (cs : List Char)
    (henc : encode_chars table text k i = some cs) : ∀ c ∈ cs, c = '0' ∨ c = '1' := by
  apply encode_chars_forall table text (fun c => c = '0' ∨ c = '1') _ k i cs henc
  intro e he c hc
  rw [code_chunk_of_invariant table hT e he] at hc
  exact (hT.2.2 e he).2 c hc

theorem eq_of_getD_eq (xs ys : List Char) (hlen : xs.length = ys.length)
    (h : ∀ j, j < xs.length → xs.getD j NUL = ys.getD j NUL) : xs = ys := by
  apply List.ext_getElem hlen
  intro j h1 h2
  have := h j h1
  rwa [List.getD_eq_getElem _ _ h1, List.getD_eq_getElem _ _ h2] at this

theorem getD_mem_of_lt (xs : List Char) (j : Nat) (h : j < xs.length) : xs.getD j NUL ∈ xs := by
  rw [List.getD_eq_getElem _ _ h]
  exact List.getElem_mem h

theorem decode_encode_chars (table : List LookupEntry) (hT : TableInvariant table)
    (text cs : List Char) (henc : encode_chars table text text.length 0 = some cs) :
    decode_chunks table (cs ++ [NUL]) text.length 0 = some text := by
  cases hdec : decode_chunks table (cs ++ [NUL]) text.length 0 with
  | none =>
    obtain ⟨j, hj, hno⟩ := (decode_chunks_eq_none_iff table _ _ 0).mp hdec
    obtain ⟨e, hmem, _, hch, _⟩ := encode_chars_entry table hT text _ cs [NUL] henc j hj
    rw [Nat.zero_add] at hno
    exact absurd ⟨e, hmem, hch.symm⟩ hno
  | some ds =>
    have hlen := decode_chunks_length table _ _ 0 ds hdec
    congr 1
    apply eq_of_getD_eq ds text hlen
    intro j hj
    rw [hlen] at hj
    obtain ⟨e, _, hasc, _, hfind⟩ := encode_chars_entry table hT text _ cs [NUL] henc j hj
    obtain ⟨e2, hfind2, hget⟩ := decode_chunks_getD table _ _ 0 ds hdec j hj
    rw [Nat.zero_add, hfind] at hfind2
    rw [hget, ← Option.some.inj hfind2, hasc]

theorem strlen_replicate (n : Nat) (c : Char) (hc : c ≠ NUL) :
    strlen (List.replicate n c) = n := by
  rw [strlen_eq_length _ (fun x hx => by rw [List.eq_of_mem_replicate hx]; exact hc),
    List.length_replicate]

/-! ## Sample data facts -/

theorem sampleTable_invariant : TableInvariant sampleTable := by
  unfold TableInvariant sampleTable
  decide

theorem sampleTable_hasEntry_A : HasEntry sampleTable 'A' :=
  ⟨⟨['1', '0', '0', '0', '0', '0', '1'], 'A'⟩, by simp [sampleTable], rfl⟩

/-! ## Batch round trip -/

/-- C1 (as amended): batch round trip.  For a table satisfying the data-model invariant and a
`NUL`-free text all of whose characters have a table entry, whose length passes the overflow
guard (`length ≤ SIZE_MAX / 7`), and with both allocations succeeding,
`convert_text_to_binary` returns a binary string and the length `7 * length`, and
`convert_binary_to_text` applied to that string and length returns exactly the text
(followed by its terminator). -/
theorem C1_batch_round_trip (A : Allocator) (table : List LookupEntry) (text : List Char)
    (old : Nat) (buf1 buf2 : List Char) (hT : TableInvariant table)
    (hnul : ∀ c ∈ text, c ≠ NUL) (hent : ∀ c ∈ text, HasEntry table c)
    (hguard : text.length ≤ SIZE_MAX / 7)
    (halloc1 : A.malloc (7 * text.length + 1) = some buf1)
    (halloc2 : A.malloc (text.length + 1) = some buf2) :
    ∃ binary : List Char,
      convert_text_to_binary A table (some text) (some old) =
        (some binary, some (7 * text.length)) ∧
      convert_binary_to_text A table (some binary) (7 * text.length) =
        some (text ++ [NUL]) := by
  have hstr : strlen text = text.length := strlen_eq_length text hnul
  cases henc : encode_chars table text text.length 0 with
  | none =>
    obtain ⟨j, hj, hno⟩ := (encode_chars_eq_none_iff table text _ 0).mp henc
    rw [Nat.zero_add] at hno
    exact absurd (hent _ (getD_mem_of_lt text j hj)) hno
  | some cs =>
    have hconv := convert_text_to_binary_eq A table text old buf1 (by rw [hstr]; exact hguard)
      (by rw [hstr]; exact halloc1)
    rw [hstr, henc] at hconv
    refine ⟨cs ++ [NUL], hconv, ?_⟩
    have hlen := encode_chars_length table text _ 0 cs henc
    have hbits := encode_chars_bits table hT text _ 0 cs henc
    have hdiv : 7 * text.length / 7 = text.length := Nat.mul_div_cancel_left _ (by decide)
    have hv : ∀ t, t < 7 * text.length →
        (cs ++ [NUL]).getD t NUL = '0' ∨ (cs ++ [NUL]).getD t NUL = '1' := by
      intro t ht
      rw [List.getD_append _ _ _ _ (by omega)]
      exact hbits _ (getD_mem_of_lt cs t (by omega))
    rw [convert_binary_to_text_eq A table (cs ++ [NUL]) (7 * text.length) buf2
      (Nat.mul_mod_right 7 _) hv (by rw [hdiv]; exact halloc2), hdiv,
      decode_encode_chars table hT text cs henc]
    rfl

/-- Witness for C1 (as amended): the text "AB!A" with the sample table and allocator. -/
theorem C1_batch_round_trip_witness :
    TableInvariant sampleTable ∧ (∀ c ∈ ['A', 'B', '!', 'A'], c ≠ NUL) ∧
    (∀ c ∈ ['A', 'B', '!', 'A'], HasEntry sampleTable c) ∧
    ['A', 'B', '!', 'A'].length ≤ SIZE_MAX / 7 ∧
    ∃ binary : List Char,
      convert_text_to_binary sampleAllocator sampleTable (some ['A', 'B', '!', 'A']) (some 0) =
        (some binary, some (7 * ['A', 'B', '!', 'A'].length)) ∧
      convert_binary_to_text sampleAllocator sampleTable (some binary)
        (7 * ['A', 'B', '!', 'A'].length) = some (['A', 'B', '!', 'A'] ++ [NUL]) := by
  have hnul : ∀ c ∈ ['A', 'B', '!', 'A'], c ≠ NUL := by decide
  have hent : ∀ c ∈ ['A', 'B', '!', 'A'], HasEntry sampleTable c := by
    unfold HasEntry sampleTable
    decide
  have hguard : ['A', 'B', '!', 'A'].length ≤ SIZE_MAX / 7 := by decide
  exact ⟨sampleTable_invariant, hnul, hent, hguard,
    C1_batch_round_trip sampleAllocator sampleTable ['A', 'B', '!', 'A'] 0 _ _
      sampleTable_invariant hnul hent hguard rfl rfl⟩

/-- Counterexample to C1 as stated: the sample table satisfies the data-model invariant and
the text made of `SIZE_MAX / 7 + 1` copies of 'A' is `NUL`-free with every character in the
table, yet `convert_text_to_binary` returns the null pointer (and stores no length) for
every allocator, because the text length fails the overflow guard.  Likewise the one-character
text "A" is not converted when the allocation fails. -/
theorem C1_counterexample_overflow_guard :
    TableInvariant sampleTable ∧
    (∀ c ∈ List.replicate (SIZE_MAX / 7 + 1) 'A', c ≠ NUL) ∧
    (∀ c ∈ List.replicate (SIZE_MAX / 7 + 1) 'A', HasEntry sampleTable c) ∧
    (∀ (A : Allocator) (old : Nat),
      convert_text_to_binary A sampleTable (some (List.replicate (SIZE_MAX / 7 + 1) 'A'))
        (some old) = (none, some old)) ∧
    convert_text_to_binary failingAllocator sampleTable (some ['A']) (some 0) =
      (none, some 0) := by
  refine ⟨sampleTable_invariant, ?_, ?_, ?_, by decide⟩
  · intro c hc
    rw [List.eq_of_mem_replicate hc]
    decide
  · intro c hc
    rw [List.eq_of_mem_replicate hc]
    exact sampleTable_hasEntry_A
  · intro A old
    apply convert_text_to_binary_guard
    rw [strlen_replicate _ 'A' (by decide)]
    exact Nat.lt_succ_self _

/-! ## Single-character conversions -/

/-- C2: single-character round trip.  For a table satisfying the data-model invariant and a
character `c` with a table entry, `ascii_to_binary_char` returns `ASCIIBIN_SUCCESS` and leaves
in the buffer a string of 7 symbols over '0' and '1'; `binary_to_ascii_char` applied to that
buffer returns `ASCIIBIN_SUCCESS` and stores the character `c`. -/
theorem C2_single_char_round_trip (table : List LookupEntry) (c : Char) (buf : List Char)
    (out : Char) (hT : TableInvariant table) (hc : HasEntry table c) :
    ∃ buffer : List Char,
      ascii_to_binary_char table c (some buf) = (ASCIIBIN_SUCCESS, some buffer) ∧
      strlen buffer = 7 ∧ (∀ x ∈ cstr buffer, x = '0' ∨ x = '1') ∧
      binary_to_ascii_char table (some buffer) (some out) = (ASCIIBIN_SUCCESS, some c) := by
  obtain ⟨e, hfind, hmem, hasc⟩ := find_ascii_of_hasEntry table c hc
  obtain ⟨_, hcodes, hshape⟩ := hT
  obtain ⟨hlen, hbits⟩ := hshape e hmem
  have hcstr : cstr (memwrite buf 0 (e.binary ++ [NUL])) = e.binary := by
    rw [memwrite_zero_eq]
    exact cstr_code_buffer e.binary _ hbits
  refine ⟨memwrite buf 0 (e.binary ++ [NUL]),
    ascii_to_binary_char_of_find_some table c buf e hfind, ?_, ?_, ?_⟩
  · rw [strlen, hcstr, hlen]
  · rw [hcstr]
    exact hbits
  · have h := binary_to_ascii_char_of_find_some table (memwrite buf 0 (e.binary ++ [NUL])) out e
      (by rw [strlen, hcstr, hlen]) (by rw [hcstr]; exact hbits)
      (by rw [hcstr]; exact find_binary_of_mem table e hcodes hmem)
    rw [h, hasc]

/-- Witness for C2: the character 'A' in the sample table, with an 8-byte buffer. -/
theorem C2_single_char_round_trip_witness :
    TableInvariant sampleTable ∧ HasEntry sampleTable 'A' ∧
    ∃ buffer : List Char,
      ascii_to_binary_char sampleTable 'A' (some (List.replicate 8 '?')) =
        (ASCIIBIN_SUCCESS, some buffer) ∧
      strlen buffer = 7 ∧ (∀ x ∈ cstr buffer, x = '0' ∨ x = '1') ∧
      binary_to_ascii_char sampleTable (some buffer) (some 'x') = (ASCIIBIN_SUCCESS, some 'A') :=
  ⟨sampleTable_invariant, sampleTable_hasEntry_A,
    C2_single_char_round_trip sampleTable 'A' (List.replicate 8 '?') 'x'
      sampleTable_invariant sampleTable_hasEntry_A⟩

/-- C3: rejection of malformed codes.  For every table, every string `s` whose length is not
7, or whose length is 7 but which contains a symbol other than '0' or '1', and every output
location, `binary_to_ascii_char` returns `ASCIIBIN_ERROR_INVALID_INPUT` and leaves the output
untouched; in particular this is the result for "1010102", "10101" and "10101ab". -/
theorem C3_malformed_code_is_invalid_input :
    (∀ (table : List LookupEntry) (s : List Char) (out : Char),
      (strlen s ≠ 7 ∨ (strlen s = 7 ∧ ∃ c ∈ cstr s, c ≠ '0' ∧ c ≠ '1')) →
      binary_to_ascii_char table (some s) (some out) =
        (ASCIIBIN_ERROR_INVALID_INPUT, some out)) ∧
    (∀ (table : List LookupEntry) (out : Char),
      binary_to_ascii_char table (some ['1', '0', '1', '0', '1', '0', '2']) (some out) =
        (ASCIIBIN_ERROR_INVALID_INPUT, some out) ∧
      binary_to_ascii_char table (some ['1', '0', '1', '0', '1']) (some out) =
        (ASCIIBIN_ERROR_INVALID_INPUT, some out) ∧
      binary_to_ascii_char table (some ['1', '0', '1', '0', '1', 'a', 'b']) (some out) =
        (ASCIIBIN_ERROR_INVALID_INPUT, some out)) := by
  have main : ∀ (table : List LookupEntry) (s : List Char) (out : Char),
      (strlen s ≠ 7 ∨ (strlen s = 7 ∧ ∃ c ∈ cstr s, c ≠ '0' ∧ c ≠ '1')) →
      binary_to_ascii_char table (some s) (some out) =
        (ASCIIBIN_ERROR_INVALID_INPUT, some out) := by
    intro table s out h
    apply binary_to_ascii_char_invalid
    rcases h with h | ⟨hlen, c, hc, h0, h1⟩
    · exact Or.inl h
    · right
      obtain ⟨j, hj, hjc⟩ := List.getElem_of_mem hc
      have hjs : j < strlen s := hj
      refine ⟨j, by omega, ?_⟩
      rw [← getD_cstr s j hjs, List.getD_eq_getElem _ _ hj, hjc]
      exact ⟨h0, h1⟩
  refine ⟨main, fun table out => ⟨?_, ?_, ?_⟩⟩
  · exact main table _ out (Or.inr ⟨by decide, '2', by decide, by decide, by decide⟩)
  · exact main table _ out (Or.inl (by decide))
  · exact main table _ out (Or.inr ⟨by decide, 'a', by decide, by decide, by decide⟩)

/-- Witness for C3: the 7-symbol string "1010102" against the sample table. -/
theorem C3_malformed_code_is_invalid_input_witness :
    (strlen ['1', '0', '1', '0', '1', '0', '2'] ≠ 7 ∨
      (strlen ['1', '0', '1', '0', '1', '0', '2'] = 7 ∧
        ∃ c ∈ cstr ['1', '0', '1', '0', '1', '0', '2'], c ≠ '0' ∧ c ≠ '1')) ∧
    binary_to_ascii_char sampleTable (some ['1', '0', '1', '0', '1', '0', '2']) (some 'x') =
      (ASCIIBIN_ERROR_INVALID_INPUT, some 'x') :=
  ⟨Or.inr ⟨by decide, '2', by decide, by decide, by decide⟩,
    C3_malformed_code_is_invalid_input.1 sampleTable ['1', '0', '1', '0', '1', '0', '2'] 'x'
      (Or.inr ⟨by decide, '2', by decide, by decide, by decide⟩)⟩

/-- C4: for every table and every string `s` of exactly 7 symbols over '0' and '1',
`binary_to_ascii_char` returns `ASCIIBIN_ERROR_NOT_FOUND` exactly when no table entry has code
`s`; otherwise it returns `ASCIIBIN_SUCCESS` and stores the character reported by
`find_binary_in_table`, which is the character of an entry whose code equals `s`. -/
theorem C4_binary_to_ascii_char_lookup (table : List LookupEntry) (s : List Char) (out : Char)
    (hlen : strlen s = 7) (hbits : ∀ c ∈ cstr s, c = '0' ∨ c = '1') :
    ((binary_to_ascii_char table (some s) (some out)).1 = ASCIIBIN_ERROR_NOT_FOUND ↔
      ¬ HasCode table (cstr s)) ∧
    (¬ HasCode table (cstr s) →
      binary_to_ascii_char table (some s) (some out) = (ASCIIBIN_ERROR_NOT_FOUND, some out)) ∧
    (HasCode table (cstr s) →
      ∃ e ∈ table, e.binary = cstr s ∧
        find_binary_in_table table s out = (1, e.ascii) ∧
        binary_to_ascii_char table (some s) (some out) = (ASCIIBIN_SUCCESS, some e.ascii)) := by
  cases hf : table.find? (fun e => e.binary == cstr s) with
  | none =>
    have hno : ¬ HasCode table (cstr s) := (find_binary_eq_none_iff table (cstr s)).mp hf
    have hres := binary_to_ascii_char_of_find_none table s out hlen hbits hf
    refine ⟨?_, fun _ => hres, fun h => absurd h hno⟩
    rw [hres]
    exact ⟨fun _ => hno, fun _ => rfl⟩
  | some e =>
    obtain ⟨hmem, hcode⟩ := find_binary_eq_some table (cstr s) e hf
    have hyes : HasCode table (cstr s) := ⟨e, hmem, hcode⟩
    have hres := binary_to_ascii_char_of_find_some table s out e hlen hbits hf
    refine ⟨?_, fun h => absurd hyes h, fun _ => ⟨e, hmem, hcode, ?_, hres⟩⟩
    · rw [hres]
      exact ⟨fun h => by simp at h, fun h => absurd hyes h⟩
    · simp [find_binary_in_table, hf]

/-- Witness for C4: the code "1000010" of 'B' against the sample table. -/
theorem C4_binary_to_ascii_char_lookup_witness :
    strlen ['1', '0', '0', '0', '0', '1', '0'] = 7 ∧
    (∀ c ∈ cstr ['1', '0', '0', '0', '0', '1', '0'], c = '0' ∨ c = '1') ∧
    binary_to_ascii_char sampleTable (some ['1', '0', '0', '0', '0', '1', '0']) (some 'x') =
      (ASCIIBIN_SUCCESS, some 'B') := by
  have hlen : strlen ['1', '0', '0', '0', '0', '1', '0'] = 7 := by decide
  have hbits : ∀ c ∈ cstr ['1', '0', '0', '0', '0', '1', '0'], c = '0' ∨ c = '1' := by decide
  have hcode : HasCode sampleTable (cstr ['1', '0', '0', '0', '0', '1', '0']) :=
    ⟨⟨['1', '0', '0', '0', '0', '1', '0'], 'B'⟩, by simp [sampleTable], by decide⟩
  obtain ⟨e, _, _, hfind, hres⟩ :=
    (C4_binary_to_ascii_char_lookup sampleTable ['1', '0', '0', '0', '0', '1', '0'] 'x'
      hlen hbits).2.2 hcode
  refine ⟨hlen, hbits, ?_⟩
  have hB : e.ascii = 'B' := by
    have h2 : find_binary_in_table sampleTable ['1', '0', '0', '0', '0', '1', '0'] 'x' =
        (1, 'B') := by decide
    rw [h2] at hfind
    exact (congrArg Prod.snd hfind).symm
  rw [hres, hB]

/-- C5: for every table, every character `c` and every (non-null) buffer,
`ascii_to_binary_char` returns `ASCIIBIN_ERROR_NOT_FOUND` exactly when `c` has no table entry
(the buffer is then untouched); otherwise it returns `ASCIIBIN_SUCCESS` and the buffer holds
the terminated code of an entry of `c`.  Under the table invariant that entry is the only entry
of `c`, and the string in the buffer is exactly its code, 7 symbols over '0' and '1'. -/
theorem C5_ascii_to_binary_char_lookup (table : List LookupEntry) (c : Char)
    (buf : List Char) :
    ((ascii_to_binary_char table c (some buf)).1 = ASCIIBIN_ERROR_NOT_FOUND ↔
      ¬ HasEntry table c) ∧
    (¬ HasEntry table c →
      ascii_to_binary_char table c (some buf) = (ASCIIBIN_ERROR_NOT_FOUND, some buf)) ∧
    (HasEntry table c →
      ∃ e ∈ table, e.ascii = c ∧
        ascii_to_binary_char table c (some buf) =
          (ASCIIBIN_SUCCESS, some (memwrite buf 0 (e.binary ++ [NUL]))) ∧
        (TableInvariant table →
          (∀ e2 ∈ table, e2.ascii = c → e2 = e) ∧
          cstr (memwrite buf 0 (e.binary ++ [NUL])) = e.binary ∧
          (memwrite buf 0 (e.binary ++ [NUL])).take 8 = e.binary ++ [NUL] ∧
          e.binary.length = 7 ∧ ∀ x ∈ e.binary, x = '0' ∨ x = '1')) := by
  cases hf : table.find? (fun e => e.ascii == c) with
  | none =>
    have hno : ¬ HasEntry table c := (find_ascii_eq_none_iff table c).mp hf
    have hres := ascii_to_binary_char_of_find_none table c buf hf
    refine ⟨?_, fun _ => hres, fun h => absurd h hno⟩
    rw [hres]
    exact ⟨fun _ => hno, fun _ => rfl⟩
  | some e =>
    obtain ⟨hmem, hasc⟩ := find_ascii_eq_some table c e hf
    have hyes : HasEntry table c := ⟨e, hmem, hasc⟩
    have hres := ascii_to_binary_char_of_find_some table c buf e hf
    refine ⟨?_, fun h => absurd hyes h, fun _ => ⟨e, hmem, hasc, hres, ?_⟩⟩
    · rw [hres]
      exact ⟨fun h => by simp at h, fun h => absurd hyes h⟩
    · intro hT
      obtain ⟨hchars, _, hshape⟩ := hT
      obtain ⟨hlen, hbits⟩ := hshape e hmem
      refine ⟨?_, ?_, ?_, hlen, hbits⟩
      · intro e2 he2 hasc2
        have h1 := find_ascii_of_mem table e2 hchars he2
        rw [hasc2, hf] at h1
        exact (Option.some.inj h1).symm
      · rw [memwrite_zero_eq]
        exact cstr_code_buffer e.binary _ hbits
      · rw [memwrite_zero_eq, List.take_append_of_le_length (by simp [hlen])]
        exact List.take_of_length_le (by simp [hlen])

/-- Witness for C5: the character 'A' in the sample table, with an 8-byte buffer. -/
theorem C5_ascii_to_binary_char_lookup_witness :
    HasEntry sampleTable 'A' ∧ TableInvariant sampleTable ∧
    ∃ e ∈ sampleTable, e.ascii = 'A' ∧
      ascii_to_binary_char sampleTable 'A' (some (List.replicate 8 '?')) =
        (ASCIIBIN_SUCCESS, some (e.binary ++ [NUL])) ∧ e.binary.length = 7 := by
  obtain ⟨e, hmem, hasc, hres, hinv⟩ :=
    (C5_ascii_to_binary_char_lookup sampleTable 'A' (List.replicate 8 '?')).2.2
      sampleTable_hasEntry_A
  obtain ⟨_, _, htake, hlen, _⟩ := hinv sampleTable_invariant
  refine ⟨sampleTable_hasEntry_A, sampleTable_invariant, e, hmem, hasc, ?_, hlen⟩
  have hsize : (memwrite (List.replicate 8 '?') 0 (e.binary ++ [NUL])).length ≤ 8 := by
    simp [memwrite, hlen]
  rw [hres, (List.take_of_length_le hsize).symm.trans htake]

/-! ## Batch conversions -/

/-- C6: whenever `convert_text_to_binary` succeeds, the table codes being strings of 7
symbols, the returned binary string is the left-to-right concatenation of the codes of the
characters of the text: for every index `i` below the text length, the symbols
`7 * i .. 7 * i + 6` of the result are the code of the table entry of `text[i]`. -/
theorem C6_binary_is_concatenation_of_codes (A : Allocator) (table : List LookupEntry)
    (text : List Char) (old : Nat) (binary : List Char) (n : Nat)
    (hcodes : ∀ e ∈ table, e.binary.length = 7 ∧ ∀ c ∈ e.binary, c ≠ NUL)
    (hok : convert_text_to_binary A table (some text) (some old) = (some binary, some n)) :
    ∀ i, i < strlen text →
      ∃ e ∈ table, table.find? (fun x => x.ascii == text.getD i NUL) = some e ∧
        e.ascii = text.getD i NUL ∧ chunk binary i = e.binary := by
  obtain ⟨_, _, cs, henc, rfl⟩ := convert_text_to_binary_success A table text old binary _ hok
  intro i hi
  obtain ⟨e, hf, hch⟩ := encode_chars_chunk table text _ 0 cs henc i hi
  rw [Nat.zero_add] at hf
  obtain ⟨hmem, hasc⟩ := find_ascii_eq_some table _ e hf
  have hlen := encode_chars_length table text _ 0 cs henc
  refine ⟨e, hmem, hf, hasc, ?_⟩
  rw [chunk_append_left cs [NUL] i (by omega), hch]
  exact code_chunk_eq e (hcodes e hmem).1 (hcodes e hmem).2

/-- Witness for C6: the text "AB" with the sample table and allocator. -/
theorem C6_binary_is_concatenation_of_codes_witness :
    (∀ e ∈ sampleTable, e.binary.length = 7 ∧ ∀ c ∈ e.binary, c ≠ NUL) ∧
    convert_text_to_binary sampleAllocator sampleTable (some ['A', 'B']) (some 0) =
      (some ['1', '0', '0', '0', '0', '0', '1', '1', '0', '0', '0', '0', '1', '0', NUL],
        some 14) ∧
    ∀ i, i < strlen ['A', 'B'] →
      ∃ e ∈ sampleTable,
        sampleTable.find? (fun x => x.ascii == ['A', 'B'].getD i NUL) = some e ∧
        e.ascii = ['A', 'B'].getD i NUL ∧
        chunk ['1', '0', '0', '0', '0', '0', '1', '1', '0', '0', '0', '0', '1', '0', NUL] i =
          e.binary := by
  have hcodes : ∀ e ∈ sampleTable, e.binary.length = 7 ∧ ∀ c ∈ e.binary, c ≠ NUL := by
    unfold sampleTable
    decide
  have hok : convert_text_to_binary sampleAllocator sampleTable (some ['A', 'B']) (some 0) =
      (some ['1', '0', '0', '0', '0', '0', '1', '1', '0', '0', '0', '0', '1', '0', NUL],
        some 14) := by decide
  exact ⟨hcodes, hok,
    C6_binary_is_concatenation_of_codes sampleAllocator sampleTable ['A', 'B'] 0 _ 14
      hcodes hok⟩

/-- C7: length invariant.  Whenever `convert_text_to_binary` succeeds, the length stored
through `binary_length` is `7 * strlen(text)`, the returned block consists of exactly
`7 * strlen(text)` bytes followed by the terminator, and, the table codes being strings of 7
symbols, the length of the returned string is `7 * strlen(text)` as well. -/
theorem C7_length_invariant (A : Allocator) (table : List LookupEntry) (text : List Char)
    (old : Nat) (binary : List Char) (n : Nat)
    (hok : convert_text_to_binary A table (some text) (some old) = (some binary, some n)) :
    n = 7 * strlen text ∧
    (∃ cs, binary = cs ++ [NUL] ∧ cs.length = 7 * strlen text) ∧
    ((∀ e ∈ table, e.binary.length = 7 ∧ ∀ c ∈ e.binary, c ≠ NUL) →
      strlen binary = 7 * strlen text) := by
  obtain ⟨_, hn, cs, henc, rfl⟩ := convert_text_to_binary_success A table text old binary _ hok
  have hlen := encode_chars_length table text _ 0 cs henc
  refine ⟨Option.some.inj hn, ⟨cs, rfl, hlen⟩, ?_⟩
  intro hcodes
  have hnn : ∀ c ∈ cs, c ≠ NUL := by
    apply encode_chars_forall table text (fun c => c ≠ NUL) _ _ 0 cs henc
    intro e he c hc
    rw [code_chunk_eq e (hcodes e he).1 (hcodes e he).2] at hc
    exact (hcodes e he).2 c hc
  rw [strlen, cstr_append_NUL cs [] hnn, hlen]

/-- Witness for C7: the text "AB" with the sample table and allocator. -/
theorem C7_length_invariant_witness :
    convert_text_to_binary sampleAllocator sampleTable (some ['A', 'B']) (some 0) =
      (some ['1', '0', '0', '0', '0', '0', '1', '1', '0', '0', '0', '0', '1', '0', NUL],
        some 14) ∧
    14 = 7 * strlen ['A', 'B'] ∧
    strlen ['1', '0', '0', '0', '0', '0', '1', '1', '0', '0', '0', '0', '1', '0', NUL] =
      7 * strlen ['A', 'B'] := by
  have hcodes : ∀ e ∈ sampleTable, e.binary.length = 7 ∧ ∀ c ∈ e.binary, c ≠ NUL := by
    unfold sampleTable
    decide
  have hok : convert_text_to_binary sampleAllocator sampleTable (some ['A', 'B']) (some 0) =
      (some ['1', '0', '0', '0', '0', '0', '1', '1', '0', '0', '0', '0', '1', '0', NUL],
        some 14) := by decide
  have h := C7_length_invariant sampleAllocator sampleTable ['A', 'B'] 0 _ 14 hok
  exact ⟨hok, h.1, h.2.2 hcodes⟩

/-- C8: all-or-nothing encoding.  For a text whose length passes the overflow guard, with the
allocation succeeding, `convert_text_to_binary` fails exactly when some character of the text
has no table entry.  When it fails it returns the null pointer and leaves `*binary_length`
untouched, and the per-character conversion of each character without an entry returns
`ASCIIBIN_ERROR_NOT_FOUND`. -/
theorem C8_encoding_all_or_nothing (A : Allocator) (table : List LookupEntry)
    (text : List Char) (old : Nat) (buf : List Char) (hguard : strlen text ≤ SIZE_MAX / 7)
    (halloc : A.malloc (7 * strlen text + 1) = some buf) :
    ((convert_text_to_binary A table (some text) (some old)).1 = none ↔
      ∃ i, i < strlen text ∧ ¬ HasEntry table (text.getD i NUL)) ∧
    ((convert_text_to_binary A table (some text) (some old)).1 = none →
      convert_text_to_binary A table (some text) (some old) = (none, some old)) ∧
    (∀ i, i < strlen text → ¬ HasEntry table (text.getD i NUL) →
      ∀ b : List Char, ascii_to_binary_char table (text.getD i NUL) (some b) =
        (ASCIIBIN_ERROR_NOT_FOUND, some b)) := by
  have hconv := convert_text_to_binary_eq A table text old buf hguard halloc
  have hnone := encode_chars_eq_none_iff table text (strlen text) 0
  simp only [Nat.zero_add] at hnone
  refine ⟨?_, ?_, ?_⟩
  · rw [hconv, ← hnone]
    cases encode_chars table text (strlen text) 0 with
    | none => simp
    | some cs => simp
  · rw [hconv]
    cases encode_chars table text (strlen text) 0 with
    | none => simp
    | some cs => simp
  · intro i _ hno b
    exact ascii_to_binary_char_of_find_none table _ b
      ((find_ascii_eq_none_iff table _).mpr hno)

/-- Witness for C8: the text "A?B", whose second character has no entry in the sample
table. -/
theorem C8_encoding_all_or_nothing_witness :
    strlen ['A', '?', 'B'] ≤ SIZE_MAX / 7 ∧
    sampleAllocator.malloc (7 * strlen ['A', '?', 'B'] + 1) = some (List.replicate 22 '?') ∧
    ((convert_text_to_binary sampleAllocator sampleTable (some ['A', '?', 'B']) (some 5)).1 =
        none ↔
      ∃ i, i < strlen ['A', '?', 'B'] ∧ ¬ HasEntry sampleTable (['A', '?', 'B'].getD i NUL)) :=
  ⟨by decide, rfl,
    (C8_encoding_all_or_nothing sampleAllocator sampleTable ['A', '?', 'B'] 5
      (List.replicate 22 '?') (by decide) rfl).1⟩

/-- C9: for every table, every allocator, every binary string `b` and every length `n`, if
`n` is not a multiple of 7, or if one of the first `n` symbols of `b` is neither '0' nor '1',
then `convert_binary_to_text` returns the null pointer; in the second case it is the
validator `is_valid_binary_string` that rejects the input. -/
theorem C9_invalid_binary_is_rejected (A : Allocator) (table : List LookupEntry)
    (b : List Char) (n : Nat)
    (h : n % 7 ≠ 0 ∨ ∃ t, t < n ∧ b.getD t NUL ≠ '0' ∧ b.getD t NUL ≠ '1') :
    convert_binary_to_text A table (some b) n = none ∧
    ((∃ t, t < n ∧ b.getD t NUL ≠ '0' ∧ b.getD t NUL ≠ '1') →
      is_valid_binary_string (some b) n = 0) :=
  ⟨convert_binary_to_text_invalid A table b n h,
    (is_valid_binary_string_eq_zero_iff b n).mpr⟩

/-- Witness for C9: the 7-symbol string "1000021", which contains the symbol '2'. -/
theorem C9_invalid_binary_is_rejected_witness :
    (7 % 7 ≠ 0 ∨ ∃ t, t < 7 ∧ ['1', '0', '0', '0', '0', '2', '1'].getD t NUL ≠ '0' ∧
      ['1', '0', '0', '0', '0', '2', '1'].getD t NUL ≠ '1') ∧
    convert_binary_to_text sampleAllocator sampleTable
      (some ['1', '0', '0', '0', '0', '2', '1']) 7 = none :=
  ⟨Or.inr ⟨5, by decide, by decide, by decide⟩,
    (C9_invalid_binary_is_rejected sampleAllocator sampleTable
      ['1', '0', '0', '0', '0', '2', '1'] 7
      (Or.inr ⟨5, by decide, by decide, by decide⟩)).1⟩

/-- C10: for a binary string `b` and a length `n` that is a multiple of 7, the first `n`
symbols of `b` being '0' or '1' and the allocation succeeding, `convert_binary_to_text`
succeeds exactly when each of the `n / 7` consecutive 7-symbol chunks of `b` is the code of a
table entry.  On success the result consists of exactly `n / 7` characters followed by the
terminator, and its `i`-th character is the character of the table entry found for the `i`-th
chunk; if some chunk has no entry the call returns the null pointer. -/
theorem C10_decoding_chunks (A : Allocator) (table : List LookupEntry) (b : List Char)
    (n : Nat) (buf : List Char) (h7 : n % 7 = 0)
    (hv : ∀ t, t < n → b.getD t NUL = '0' ∨ b.getD t NUL = '1')
    (halloc : A.malloc (n / 7 + 1) = some buf) :
    (convert_binary_to_text A table (some b) n ≠ none ↔
      ∀ i, i < n / 7 → HasCode table (chunk b i)) ∧
    (∀ text, convert_binary_to_text A table (some b) n = some text →
      ∃ cs, text = cs ++ [NUL] ∧ cs.length = n / 7 ∧
        ∀ i, i < n / 7 →
          ∃ e ∈ table, e.binary = chunk b i ∧
            table.find? (fun x => x.binary == chunk b i) = some e ∧
            cs.getD i NUL = e.ascii) ∧
    ((∃ i, i < n / 7 ∧ ¬ HasCode table (chunk b i)) →
      convert_binary_to_text A table (some b) n = none) := by
  have hconv := convert_binary_to_text_eq A table b n buf h7 hv halloc
  have hnone := decode_chunks_eq_none_iff table b (n / 7) 0
  simp only [Nat.zero_add] at hnone
  refine ⟨?_, ?_, ?_⟩
  · rw [hconv, ne_eq, Option.map_eq_none', hnone]
    constructor
    · intro h i hi
      by_contra hno
      exact h ⟨i, hi, hno⟩
    · rintro h ⟨i, hi, hno⟩
      exact hno (h i hi)
  · intro text htext
    rw [hconv, Option.map_eq_some'] at htext
    obtain ⟨cs, hdec, rfl⟩ := htext
    refine ⟨cs, rfl, decode_chunks_length table b _ 0 cs hdec, ?_⟩
    intro i hi
    obtain ⟨e, hf, hget⟩ := decode_chunks_getD table b _ 0 cs hdec i hi
    rw [Nat.zero_add] at hf
    obtain ⟨hmem, hcode⟩ := find_binary_eq_some table _ e hf
    exact ⟨e, hmem, hcode, hf, hget⟩
  · intro h
    rw [hconv, Option.map_eq_none', hnone]
    exact h

/-- Witness for C10: the 14-symbol string "10000100100001", the codes of 'B' and '!'. -/
theorem C10_decoding_chunks_witness :
    14 % 7 = 0 ∧
    (∀ t, t < 14 →
      ['1', '0', '0', '0', '0', '1', '0', '0', '1', '0', '0', '0', '0', '1'].getD t NUL = '0' ∨
      ['1', '0', '0', '0', '0', '1', '0', '0', '1', '0', '0', '0', '0', '1'].getD t NUL = '1') ∧
    sampleAllocator.malloc (14 / 7 + 1) = some (List.replicate 3 '?') ∧
    (convert_binary_to_text sampleAllocator sampleTable
        (some ['1', '0', '0', '0', '0', '1', '0', '0', '1', '0', '0', '0', '0', '1']) 14 ≠ none ↔
      ∀ i, i < 14 / 7 → HasCode sampleTable
        (chunk ['1', '0', '0', '0', '0', '1', '0', '0', '1', '0', '0', '0', '0', '1'] i)) ∧
    convert_binary_to_text sampleAllocator sampleTable
        (some ['1', '0', '0', '0', '0', '1', '0', '0', '1', '0', '0', '0', '0', '1']) 14 =
      some ['B', '!', NUL] := by
  have hv : ∀ t, t < 14 →
      ['1', '0', '0', '0', '0', '1', '0', '0', '1', '0', '0', '0', '0', '1'].getD t NUL = '0' ∨
      ['1', '0', '0', '0', '0', '1', '0', '0', '1', '0', '0', '0', '0', '1'].getD t NUL = '1' := by
    decide
  exact ⟨rfl, hv, rfl,
    (C10_decoding_chunks sampleAllocator sampleTable
      ['1', '0', '0', '0', '0', '1', '0', '0', '1', '0', '0', '0', '0', '1'] 14
      (List.replicate 3 '?') rfl hv rfl).1, by decide⟩

/-! ## Validator, empty input, error messages, absent references -/

theorem getD_bits_iff_take (s : List Char) (n : Nat) (hn : n ≤ s.length) :
    (∀ j, j < n → s.getD j NUL = '0' ∨ s.getD j NUL = '1') ↔
      ∀ c ∈ s.take n, c = '0' ∨ c = '1' := by
  constructor
  · intro h c hc
    obtain ⟨j, hj, hjc⟩ := List.getElem_of_mem hc
    have hjn : j < n := by
      rw [List.length_take] at hj
      omega
    have := h j hjn
    rw [List.getD_eq_getElem _ _ (by omega)] at this
    rw [← hjc, List.getElem_take]
    exact this
  · intro h j hj
    have hjl : j < s.length := by omega
    rw [List.getD_eq_getElem _ _ hjl]
    apply h
    have hjt : j < (s.take n).length := by
      rw [List.length_take]
      omega
    have : (s.take n)[j] = s[j] := List.getElem_take s
    rw [← this]
    exact List.getElem_mem hjt

theorem is_valid_binary_string_eq_one_iff (s : List Char) (n : Nat) :
    is_valid_binary_string (some s) n = 1 ↔
      ∀ j, j < n → s.getD j NUL = '0' ∨ s.getD j NUL = '1' := by
  simp only [is_valid_binary_string]
  rw [is_valid_binary_loop_eq_one_iff]
  constructor
  · intro h j hj
    exact h j (Nat.zero_le j) (by omega)
  · intro h j _ hj
    exact h j (by omega)

/-- C11: validator correctness.  For every non-null string `s` and every `n` not exceeding
the length of `s`, `is_valid_binary_string(s, n)` returns 1 if and only if each of the first
`n` symbols of `s` is '0' or '1', and returns 0 otherwise (for any `n`, reading the terminator
past the end of `s`).  It returns 1 for `n = 0`, it does not require `n` to be a multiple of
7 ("101010" with 6 and "10101010" with 8 are valid), and it returns 0 for the null pointer. -/
theorem C11_validator_correctness :
    (∀ (s : List Char) (n : Nat), n ≤ s.length →
      (is_valid_binary_string (some s) n = 1 ↔ ∀ c ∈ s.take n, c = '0' ∨ c = '1')) ∧
    (∀ (s : List Char) (n : Nat),
      (is_valid_binary_string (some s) n = 1 ↔
        ∀ j, j < n → s.getD j NUL = '0' ∨ s.getD j NUL = '1') ∧
      (is_valid_binary_string (some s) n = 0 ∨ is_valid_binary_string (some s) n = 1)) ∧
    (∀ s : List Char, is_valid_binary_string (some s) 0 = 1) ∧
    is_valid_binary_string (some ['1', '0', '1', '0', '1', '0']) 6 = 1 ∧
    is_valid_binary_string (some ['1', '0', '1', '0', '1', '0', '1', '0']) 8 = 1 ∧
    (∀ n : Nat, is_valid_binary_string none n = 0) := by
  refine ⟨?_, ?_, ?_, by decide, by decide, fun _ => rfl⟩
  · intro s n hn
    rw [is_valid_binary_string_eq_one_iff, getD_bits_iff_take s n hn]
  · intro s n
    exact ⟨is_valid_binary_string_eq_one_iff s n, is_valid_binary_loop_zero_or_one s n 0⟩
  · intro s
    rfl

/-- Witness for C11: the first 7 symbols of the 9-symbol string "1010101xy". -/
theorem C11_validator_correctness_witness :
    7 ≤ ['1', '0', '1', '0', '1', '0', '1', 'x', 'y'].length ∧
    (is_valid_binary_string (some ['1', '0', '1', '0', '1', '0', '1', 'x', 'y']) 7 = 1 ↔
      ∀ c ∈ ['1', '0', '1', '0', '1', '0', '1', 'x', 'y'].take 7, c = '0' ∨ c = '1') :=
  ⟨by decide,
    C11_validator_correctness.1 ['1', '0', '1', '0', '1', '0', '1', 'x', 'y'] 7 (by decide)⟩

/-- C12 (as amended): empty input.  For every table, the allocation of one byte succeeding,
`convert_text_to_binary("")` returns the empty binary string (a block holding only the
terminator) and stores the length 0, and `convert_binary_to_text("", 0)` returns the empty
text; neither call fails. -/
theorem C12_empty_input (A : Allocator) (table : List LookupEntry) (old : Nat)
    (buf : List Char) (halloc : A.malloc 1 = some buf) :
    convert_text_to_binary A table (some []) (some old) = (some [NUL], some 0) ∧
    convert_binary_to_text A table (some []) 0 = some [NUL] := by
  have hs : strlen [] = 0 := rfl
  constructor
  · have h := convert_text_to_binary_eq A table [] old buf (by rw [hs]; exact Nat.zero_le _)
      (by rw [hs]; exact halloc)
    rw [hs] at h
    exact h
  · have h := convert_binary_to_text_eq A table [] 0 buf rfl
      (fun t ht => absurd ht (Nat.not_lt_zero t)) halloc
    exact h

/-- Witness for C12: the sample allocator and the sample table. -/
theorem C12_empty_input_witness :
    sampleAllocator.malloc 1 = some ['?'] ∧
    convert_text_to_binary sampleAllocator sampleTable (some []) (some 9) =
      (some [NUL], some 0) ∧
    convert_binary_to_text sampleAllocator sampleTable (some []) 0 = some [NUL] :=
  ⟨rfl, C12_empty_input sampleAllocator sampleTable 9 ['?'] rfl⟩

/-- Counterexample to C12 as stated: with an allocator that returns the null pointer, both
`convert_text_to_binary("")` and `convert_binary_to_text("", 0)` return the null pointer (and
no length is stored), through the `malloc` checks of the two functions. -/
theorem C12_counterexample_allocation_failure :
    convert_text_to_binary failingAllocator sampleTable (some []) (some 0) = (none, some 0) ∧
    convert_binary_to_text failingAllocator sampleTable (some []) 0 = none := by
  constructor
  · decide
  · decide

/-- C13: `asciibin_get_error_message` is total and never reads outside the 5-element array.
The codes 0 to 4 (success, null pointer, invalid input, memory, not found) give their fixed
descriptions, and every other integer, negative or at least 5, gives "Unknown error". -/
theorem C13_error_message_total :
    asciibin_get_error_message ASCIIBIN_SUCCESS.toInt = some "Success" ∧
    asciibin_get_error_message ASCIIBIN_ERROR_NULL_POINTER.toInt =
      some "NULL pointer provided" ∧
    asciibin_get_error_message ASCIIBIN_ERROR_INVALID_INPUT.toInt =
      some "Invalid input format" ∧
    asciibin_get_error_message ASCIIBIN_ERROR_MEMORY.toInt =
      some "Memory allocation failed" ∧
    asciibin_get_error_message ASCIIBIN_ERROR_NOT_FOUND.toInt =
      some "Character not found in lookup table" ∧
    (∀ code : Int, code < 0 ∨ 5 ≤ code →
      asciibin_get_error_message code = some "Unknown error") ∧
    (∀ code : Int, ∃ msg, asciibin_get_error_message code = some msg) ∧
    (∀ code : Int, 0 ≤ code ∧ code < (error_messages.length : Int) →
      code.toNat < error_messages.length) := by
  have hlen : (error_messages.length : Int) = 5 := rfl
  have hout : ∀ code : Int, code < 0 ∨ 5 ≤ code →
      asciibin_get_error_message code = some "Unknown error" := by
    intro code h
    have hcond : ¬ (code ≥ 0 ∧ code < (error_messages.length : Int)) := by
      rw [hlen]
      omega
    simp only [asciibin_get_error_message, if_neg hcond]
  refine ⟨rfl, rfl, rfl, rfl, rfl, hout, ?_, ?_⟩
  · intro code
    by_cases h : code < 0 ∨ 5 ≤ code
    · exact ⟨_, hout code h⟩
    · have h0 : 0 ≤ code := by omega
      have h5 : code < 5 := by omega
      obtain ⟨k, rfl⟩ := Int.eq_ofNat_of_zero_le h0
      have hk : k < 5 := by omega
      interval_cases k
      · exact ⟨_, rfl⟩
      · exact ⟨_, rfl⟩
      · exact ⟨_, rfl⟩
      · exact ⟨_, rfl⟩
      · exact ⟨_, rfl⟩
  · intro code h
    rw [hlen] at h
    have : error_messages.length = 5 := rfl
    omega

/-- Witness for C13: the codes -1 and 5, just outside the known set. -/
theorem C13_error_message_total_witness :
    ((-1 : Int) < 0 ∨ 5 ≤ (-1 : Int)) ∧
    asciibin_get_error_message (-1) = some "Unknown error" ∧
    asciibin_get_error_message 5 = some "Unknown error" :=
  ⟨Or.inl (by decide), C13_error_message_total.2.2.2.2.2.1 (-1) (Or.inl (by decide)),
    C13_error_message_total.2.2.2.2.2.1 5 (Or.inr (by decide))⟩

/-- C15: absent references are rejected before any other check.  `convert_text_to_binary`
returns the null pointer, storing nothing, when the text or the length pointer is null
(in particular for both null); `binary_to_ascii_char` returns `ASCIIBIN_ERROR_NULL_POINTER`
when the code or the output pointer is null, whatever the code; `ascii_to_binary_char`
returns `ASCIIBIN_ERROR_NULL_POINTER` when the buffer is null, whatever the character. -/
theorem C15_absent_references_rejected :
    (∀ (A : Allocator) (table : List LookupEntry) (binary_length : Option Nat),
      convert_text_to_binary A table none binary_length = (none, binary_length)) ∧
    (∀ (A : Allocator) (table : List LookupEntry) (text : Option (List Char)),
      convert_text_to_binary A table text none = (none, none)) ∧
    (∀ (table : List LookupEntry) (ascii_char : Option Char),
      binary_to_ascii_char table none ascii_char =
        (ASCIIBIN_ERROR_NULL_POINTER, ascii_char)) ∧
    (∀ (table : List LookupEntry) (binary_string : Option (List Char)),
      binary_to_ascii_char table binary_string none = (ASCIIBIN_ERROR_NULL_POINTER, none)) ∧
    (∀ (table : List LookupEntry) (c : Char),
      ascii_to_binary_char table c none = (ASCIIBIN_ERROR_NULL_POINTER, none)) ∧
    (∀ (A : Allocator) (table : List LookupEntry),
      (convert_text_to_binary A table none none).1 = none) := by
  refine ⟨?_, ?_, ?_, ?_, ?_, ?_⟩
  · intro A table binary_length
    rfl
  · intro A table text
    cases text <;> rfl
  · intro table ascii_char
    rfl
  · intro table binary_string
    cases binary_string <;> rfl
  · intro table c
    rfl
  · intro A table
    rfl

/-! ## Overflow guard -/

/-- C14: overflow guard.  The guard `text_length > SIZE_MAX / 7` holds exactly when the true
product `7 * text_length` exceeds `SIZE_MAX = 2 ^ 64 - 1`; a text whose length fails the guard
is rejected (null pointer, no length stored) whatever the table and allocator; for a length
that passes the guard `required_length`, computed modulo `2 ^ 64`, is the true product; and
for a text of table characters whose allocation succeeds, the call fails exactly when
`7 * text_length` exceeds `SIZE_MAX`. -/
theorem C14_overflow_guard :
    (∀ L : Nat, L > SIZE_MAX / 7 ↔ 7 * L > 2 ^ 64 - 1) ∧
    (∀ (A : Allocator) (table : List LookupEntry) (text : List Char) (old : Nat),
      strlen text > SIZE_MAX / 7 →
      convert_text_to_binary A table (some text) (some old) = (none, some old)) ∧
    (∀ L : Nat, L ≤ SIZE_MAX / 7 → (7 * L) % 2 ^ 64 = 7 * L) ∧
    (∀ (A : Allocator) (table : List LookupEntry) (text : List Char) (old : Nat),
      (∀ i, i < strlen text → HasEntry table (text.getD i NUL)) →
      (strlen text ≤ SIZE_MAX / 7 → ∃ buf, A.malloc (7 * strlen text + 1) = some buf) →
      ((convert_text_to_binary A table (some text) (some old)).1 = none ↔
        7 * strlen text > SIZE_MAX)) := by
  have hdiv : SIZE_MAX / 7 = 2635249153387078802 := by decide
  have hmax : SIZE_MAX = 18446744073709551615 := by decide
  have hguard : ∀ L : Nat, L > SIZE_MAX / 7 ↔ 7 * L > SIZE_MAX := by
    intro L
    rw [hdiv, hmax]
    omega
  refine ⟨?_, ?_, ?_, ?_⟩
  · intro L
    exact hguard L
  · intro A table text old h
    exact convert_text_to_binary_guard A table text old h
  · intro L h
    exact (guard_no_wrap L h).1
  · intro A table text old hent halloc
    rw [← hguard]
    by_cases hg : strlen text > SIZE_MAX / 7
    · rw [convert_text_to_binary_guard A table text old hg]
      exact ⟨fun _ => hg, fun _ => rfl⟩
    · have hle : strlen text ≤ SIZE_MAX / 7 := Nat.not_lt.mp hg
      obtain ⟨buf, hbuf⟩ := halloc hle
      rw [convert_text_to_binary_eq A table text old buf hle hbuf]
      cases henc : encode_chars table text (strlen text) 0 with
      | none =>
        obtain ⟨j, hj, hno⟩ := (encode_chars_eq_none_iff table text _ 0).mp henc
        rw [Nat.zero_add] at hno
        exact absurd (hent j hj) hno
      | some cs =>
        constructor
        · intro h
          simp at h
        · intro h
          exact absurd h hg

/-- Witness for C14: the two-character text "AB" with the sample table and allocator. -/
theorem C14_overflow_guard_witness :
    (∀ i, i < strlen ['A', 'B'] → HasEntry sampleTable (['A', 'B'].getD i NUL)) ∧
    (3 ≤ SIZE_MAX / 7 ∧ (7 * 3) % 2 ^ 64 = 7 * 3) ∧
    ((convert_text_to_binary sampleAllocator sampleTable (some ['A', 'B']) (some 0)).1 = none ↔
      7 * strlen ['A', 'B'] > SIZE_MAX) := by
  have hent : ∀ i, i < strlen ['A', 'B'] → HasEntry sampleTable (['A', 'B'].getD i NUL) := by
    unfold HasEntry sampleTable
    decide
  have h3 : 3 ≤ SIZE_MAX / 7 := by decide
  exact ⟨hent, ⟨h3, C14_overflow_guard.2.2.1 3 h3⟩,
    C14_overflow_guard.2.2.2 sampleAllocator sampleTable ['A', 'B'] 0 hent
      (fun _ => ⟨_, rfl⟩)⟩

theorem convert_text_to_binary_alloc_congr (A1 A2 : Allocator) (table : List LookupEntry)
    (text : List Char) (old : Nat)
    (h : A1.malloc (((7 * strlen text) % 2 ^ 64 + 1) % 2 ^ 64) =
      A2.malloc (((7 * strlen text) % 2 ^ 64 + 1) % 2 ^ 64)) :
    convert_text_to_binary A1 table (some text) (some old) =
      convert_text_to_binary A2 table (some text) (some old) := by
  simp only [convert_text_to_binary, h]

theorem convert_text_to_binary_alloc_none (A : Allocator) (table : List LookupEntry)
    (text : List Char) (old : Nat) (hguard : strlen text ≤ SIZE_MAX / 7)
    (halloc : A.malloc (7 * strlen text + 1) = none) :
    convert_text_to_binary A table (some text) (some old) = (none, some old) := by
  obtain ⟨hw1, hw2⟩ := guard_no_wrap (strlen text) hguard
  simp only [convert_text_to_binary, if_neg (Nat.not_lt.mpr hguard), hw1, hw2, halloc]

/-- C19: the allocation size does not wrap.  For every text length `L` that passes the guard
`L ≤ SIZE_MAX / 7`, the size `required_length + 1` computed modulo `2 ^ 64` is the true value
`7 * L + 1`; it is not 0 and it exceeds every index `7 * i + 6` written for `i < L` as well as
the terminator index `7 * L`.  This size is the one `convert_text_to_binary` requests: the
call depends on the allocator only through its answer at that size, for a text that passes
the guard it returns the null pointer when the request for `7 * L + 1` bytes is refused, and
when the request is granted and every character has a table entry it returns the granted
block, still of `7 * L + 1` bytes, holding `7 * L` symbols and the terminator. -/
theorem C19_allocation_size_no_wrap :
    (∀ L : Nat, L ≤ SIZE_MAX / 7 →
      ((7 * L) % 2 ^ 64 + 1) % 2 ^ 64 = 7 * L + 1 ∧
      ((7 * L) % 2 ^ 64 + 1) % 2 ^ 64 ≠ 0 ∧
      (∀ i, i < L → 7 * i + 6 < ((7 * L) % 2 ^ 64 + 1) % 2 ^ 64) ∧
      (7 * L) % 2 ^ 64 < ((7 * L) % 2 ^ 64 + 1) % 2 ^ 64) ∧
    (∀ (A1 A2 : Allocator) (table : List LookupEntry) (text : List Char) (old : Nat),
      A1.malloc (((7 * strlen text) % 2 ^ 64 + 1) % 2 ^ 64) =
        A2.malloc (((7 * strlen text) % 2 ^ 64 + 1) % 2 ^ 64) →
      convert_text_to_binary A1 table (some text) (some old) =
        convert_text_to_binary A2 table (some text) (some old)) ∧
    (∀ (A : Allocator) (table : List LookupEntry) (text : List Char) (old : Nat),
      strlen text ≤ SIZE_MAX / 7 → A.malloc (7 * strlen text + 1) = none →
      convert_text_to_binary A table (some text) (some old) = (none, some old)) ∧
    (∀ (A : Allocator) (table : List LookupEntry) (text : List Char) (old : Nat)
      (buf : List Char),
      strlen text ≤ SIZE_MAX / 7 → A.malloc (7 * strlen text + 1) = some buf →
      (∀ i, i < strlen text → HasEntry table (text.getD i NUL)) →
      ∃ cs, convert_text_to_binary A table (some text) (some old) =
          (some (cs ++ [NUL]), some (7 * strlen text)) ∧
        cs.length = 7 * strlen text ∧ (cs ++ [NUL]).length = buf.length ∧
        buf.length = 7 * strlen text + 1) ∧
    (∀ (A : Allocator) (table : List LookupEntry) (text : List Char) (old : Nat)
      (binary : List Char) (n : Option Nat),
      convert_text_to_binary A table (some text) (some old) = (some binary, n) →
      binary.length = 7 * strlen text + 1) := by
  refine ⟨?_, ?_, ?_, ?_, ?_⟩
  · intro L h
    obtain ⟨h1, h2⟩ := guard_no_wrap L h
    rw [h1, h2]
    refine ⟨rfl, by omega, ?_, by omega⟩
    intro i hi
    omega
  · intro A1 A2 table text old h
    exact convert_text_to_binary_alloc_congr A1 A2 table text old h
  · intro A table text old hguard halloc
    exact convert_text_to_binary_alloc_none A table text old hguard halloc
  · intro A table text old buf hguard halloc hent
    have hconv := convert_text_to_binary_eq A table text old buf hguard halloc
    have hbl : buf.length = 7 * strlen text + 1 := A.malloc_size _ _ halloc
    cases henc : encode_chars table text (strlen text) 0 with
    | none =>
      obtain ⟨j, hj, hno⟩ := (encode_chars_eq_none_iff table text _ 0).mp henc
      rw [Nat.zero_add] at hno
      exact absurd (hent j hj) hno
    | some cs =>
      rw [henc] at hconv
      have hcl := encode_chars_length table text _ 0 cs henc
      refine ⟨cs, hconv, hcl, ?_, hbl⟩
      rw [List.length_append, hcl, hbl]
      rfl
  · intro A table text old binary n hok
    obtain ⟨_, _, cs, henc, rfl⟩ := convert_text_to_binary_success A table text old binary n hok
    rw [List.length_append, encode_chars_length table text _ 0 cs henc]
    rfl

/-- Witness for C19: the largest length that passes the guard, `SIZE_MAX / 7`, and the text
"AB" with an allocator that refuses and one that grants its 15 bytes. -/
theorem C19_allocation_size_no_wrap_witness :
    SIZE_MAX / 7 ≤ SIZE_MAX / 7 ∧
    ((7 * (SIZE_MAX / 7)) % 2 ^ 64 + 1) % 2 ^ 64 = 7 * (SIZE_MAX / 7) + 1 ∧
    ((7 * (SIZE_MAX / 7)) % 2 ^ 64 + 1) % 2 ^ 64 ≠ 0 ∧
    strlen ['A', 'B'] ≤ SIZE_MAX / 7 ∧
    failingAllocator.malloc (7 * strlen ['A', 'B'] + 1) = none ∧
    convert_text_to_binary failingAllocator sampleTable (some ['A', 'B']) (some 0) =
      (none, some 0) ∧
    sampleAllocator.malloc (7 * strlen ['A', 'B'] + 1) = some (List.replicate 15 '?') ∧
    (∀ i, i < strlen ['A', 'B'] → HasEntry sampleTable (['A', 'B'].getD i NUL)) ∧
    ∃ cs, convert_text_to_binary sampleAllocator sampleTable (some ['A', 'B']) (some 0) =
        (some (cs ++ [NUL]), some (7 * strlen ['A', 'B'])) ∧
      cs.length = 7 * strlen ['A', 'B'] ∧
      (cs ++ [NUL]).length = (List.replicate 15 '?').length ∧
      (List.replicate 15 '?').length = 7 * strlen ['A', 'B'] + 1 := by
  have hg : strlen ['A', 'B'] ≤ SIZE_MAX / 7 := by decide
  have hent : ∀ i, i < strlen ['A', 'B'] → HasEntry sampleTable (['A', 'B'].getD i NUL) := by
    unfold HasEntry sampleTable
    decide
  exact ⟨le_refl _, (C19_allocation_size_no_wrap.1 (SIZE_MAX / 7) (le_refl _)).1,
    (C19_allocation_size_no_wrap.1 (SIZE_MAX / 7) (le_refl _)).2.1, hg, rfl,
    C19_allocation_size_no_wrap.2.2.1 failingAllocator sampleTable ['A', 'B'] 0 hg rfl, rfl,
    hent,
    C19_allocation_size_no_wrap.2.2.2.1 sampleAllocator sampleTable ['A', 'B'] 0
      (List.replicate 15 '?') hg rfl hent⟩

/-! ## Decoding: reachable results, prefix dependence, reverse round trip -/

theorem getD_take_eq (s : List Char) (n t : Nat) (ht : t < n) :
    (s.take n).getD t NUL = s.getD t NUL := by
  simp only [List.getD_eq_getElem?_getD, List.getElem?_take_of_lt ht]

theorem valid_of_ne_zero (b : List Char) (n : Nat)
    (hv : is_valid_binary_string (some b) n ≠ 0) :
    ∀ t, t < n → b.getD t NUL = '0' ∨ b.getD t NUL = '1' := by
  rcases is_valid_binary_loop_zero_or_one b n 0 with h | h
  · exact absurd h hv
  · exact (is_valid_binary_string_eq_one_iff b n).mp h

theorem length_ge_of_valid (b : List Char) (n : Nat)
    (hv : ∀ t, t < n → b.getD t NUL = '0' ∨ b.getD t NUL = '1') : n ≤ b.length := by
  apply (strncpy_eq_take b n _).2
  intro t ht
  rcases hv t ht with h | h
  · rw [h]
    exact zero_ne_NUL
  · rw [h]
    exact one_ne_NUL

theorem convert_binary_to_text_alloc_none (A : Allocator) (table : List LookupEntry)
    (b : List Char) (n : Nat) (halloc : A.malloc (n / 7 + 1) = none) :
    convert_binary_to_text A table (some b) n = none := by
  simp only [convert_binary_to_text, halloc]
  split_ifs <;> rfl

theorem convert_binary_to_text_success (A : Allocator) (table : List LookupEntry)
    (b : List Char) (n : Nat) (t : List Char)
    (h : convert_binary_to_text A table (some b) n = some t) :
    n % 7 = 0 ∧ (∀ j, j < n → b.getD j NUL = '0' ∨ b.getD j NUL = '1') ∧
      ∃ cs, decode_chunks table b (n / 7) 0 = some cs ∧ t = cs ++ [NUL] := by
  by_cases h7 : n % 7 = 0
  · by_cases hv : is_valid_binary_string (some b) n = 0
    · rw [convert_binary_to_text_invalid A table b n
        (Or.inr ((is_valid_binary_string_eq_zero_iff b n).mp hv))] at h
      exact absurd h (by simp)
    · have hbits := valid_of_ne_zero b n hv
      cases halloc : A.malloc (n / 7 + 1) with
      | none =>
        rw [convert_binary_to_text_alloc_none A table b n halloc] at h
        exact absurd h (by simp)
      | some buf =>
        rw [convert_binary_to_text_eq A table b n buf h7 hbits halloc,
          Option.map_eq_some'] at h
        obtain ⟨cs, hcs, rfl⟩ := h
        exact ⟨h7, hbits, cs, hcs, rfl⟩
  · rw [convert_binary_to_text_invalid A table b n (Or.inl h7)] at h
    exact absurd h (by simp)

theorem chunk_congr (b1 b2 : List Char) (n i : Nat)
    (hagree : ∀ t, t < n → b1.getD t NUL = b2.getD t NUL)
    (hv : ∀ t, t < n → b1.getD t NUL = '0' ∨ b1.getD t NUL = '1')
    (hi : (i + 1) * 7 ≤ n) : chunk b1 i = chunk b2 i := by
  have hv2 : ∀ t, t < n → b2.getD t NUL = '0' ∨ b2.getD t NUL = '1' := by
    intro t ht
    rw [← hagree t ht]
    exact hv t ht
  obtain ⟨_, hl1, _⟩ := chunk_of_valid b1 i (fun t ht => hv t (by omega))
  obtain ⟨_, hl2, _⟩ := chunk_of_valid b2 i (fun t ht => hv2 t (by omega))
  apply eq_of_getD_eq _ _ (by rw [hl1, hl2])
  intro r hr
  rw [hl1] at hr
  rw [chunk_getD b1 i r hr, chunk_getD b2 i r hr]
  exact hagree _ (by omega)

theorem decode_chunks_congr (table : List LookupEntry) (b1 b2 : List Char) (k i : Nat)
    (h : ∀ j, j < k → chunk b1 (i + j) = chunk b2 (i + j)) :
    decode_chunks table b1 k i = decode_chunks table b2 k i := by
  induction k generalizing i with
  | zero => rfl
  | succ k ih =>
    have h0 : chunk b1 i = chunk b2 i := h 0 (Nat.succ_pos k)
    have hrest : decode_chunks table b1 k (i + 1) = decode_chunks table b2 k (i + 1) := by
      apply ih
      intro j hj
      rw [show i + 1 + j = i + (j + 1) by omega]
      exact h (j + 1) (by omega)
    simp only [decode_chunks, h0, hrest]

theorem convert_binary_to_text_congr (A : Allocator) (table : List LookupEntry)
    (b1 b2 : List Char) (n : Nat)
    (hagree : ∀ t, t < n → b1.getD t NUL = b2.getD t NUL) :
    convert_binary_to_text A table (some b1) n = convert_binary_to_text A table (some b2) n := by
  by_cases h7 : n % 7 = 0
  · by_cases hbad : ∃ t, t < n ∧ b1.getD t NUL ≠ '0' ∧ b1.getD t NUL ≠ '1'
    · have hbad2 : ∃ t, t < n ∧ b2.getD t NUL ≠ '0' ∧ b2.getD t NUL ≠ '1' := by
        obtain ⟨t, ht, h0, h1⟩ := hbad
        exact ⟨t, ht, by rw [← hagree t ht]; exact h0, by rw [← hagree t ht]; exact h1⟩
      rw [convert_binary_to_text_invalid A table b1 n (Or.inr hbad),
        convert_binary_to_text_invalid A table b2 n (Or.inr hbad2)]
    · have hv1 : ∀ t, t < n → b1.getD t NUL = '0' ∨ b1.getD t NUL = '1' := by
        intro t ht
        by_contra hno
        exact hbad ⟨t, ht, fun h => hno (Or.inl h), fun h => hno (Or.inr h)⟩
      have hv2 : ∀ t, t < n → b2.getD t NUL = '0' ∨ b2.getD t NUL = '1' := by
        intro t ht
        rw [← hagree t ht]
        exact hv1 t ht
      cases halloc : A.malloc (n / 7 + 1) with
      | none =>
        rw [convert_binary_to_text_alloc_none A table b1 n halloc,
          convert_binary_to_text_alloc_none A table b2 n halloc]
      | some buf =>
        rw [convert_binary_to_text_eq A table b1 n buf h7 hv1 halloc,
          convert_binary_to_text_eq A table b2 n buf h7 hv2 halloc,
          decode_chunks_congr table b1 b2 (n / 7) 0]
        intro j hj
        rw [Nat.zero_add]
        exact chunk_congr b1 b2 n j hagree hv1 (by omega)
  · rw [convert_binary_to_text_invalid A table b1 n (Or.inl h7),
      convert_binary_to_text_invalid A table b2 n (Or.inl h7)]

/-- C16 (as amended): inside `convert_binary_to_text`, once `binary_length % 7 == 0` and
`is_valid_binary_string` have passed, the string handed to `binary_to_ascii_char` for each
chunk index `i < binary_length / 7` has exactly 7 symbols, all '0' or '1', so that call
returns `ASCIIBIN_SUCCESS` or `ASCIIBIN_ERROR_NOT_FOUND`, never the null-pointer or
invalid-input code; and a failure of `convert_binary_to_text` after validation means that
the allocation failed or that some chunk has no table entry. -/
theorem C16_chunk_calls_never_invalid (A : Allocator) (table : List LookupEntry)
    (b : List Char) (n : Nat) (h7 : n % 7 = 0)
    (hv : is_valid_binary_string (some b) n ≠ 0) :
    (∀ i, i < n / 7 →
      strlen (strncpy (b.drop (i * 7)) 7 ++ [NUL]) = 7 ∧
      (∀ c ∈ cstr (strncpy (b.drop (i * 7)) 7 ++ [NUL]), c = '0' ∨ c = '1') ∧
      ∀ out : Char,
        (binary_to_ascii_char table (some (strncpy (b.drop (i * 7)) 7 ++ [NUL]))
            (some out)).1 = ASCIIBIN_SUCCESS ∨
        (binary_to_ascii_char table (some (strncpy (b.drop (i * 7)) 7 ++ [NUL]))
            (some out)).1 = ASCIIBIN_ERROR_NOT_FOUND) ∧
    (convert_binary_to_text A table (some b) n = none →
      A.malloc (n / 7 + 1) = none ∨
      ∃ i, i < n / 7 ∧ ¬ HasCode table (chunk b i) ∧
        ∀ out : Char,
          binary_to_ascii_char table (some (strncpy (b.drop (i * 7)) 7 ++ [NUL]))
            (some out) = (ASCIIBIN_ERROR_NOT_FOUND, some out)) := by
  have hbits := valid_of_ne_zero b n hv
  have hchunk : ∀ i, i < n / 7 →
      strncpy (b.drop (i * 7)) 7 = chunk b i ∧ (chunk b i).length = 7 ∧
        ∀ c ∈ chunk b i, c = '0' ∨ c = '1' :=
    fun i hi => chunk_of_valid b i (fun t ht => hbits t (by omega))
  constructor
  · intro i hi
    obtain ⟨hcopy, hlen, hcb⟩ := hchunk i hi
    have hc : cstr (chunk b i ++ [NUL]) = chunk b i :=
      cstr_append_NUL (chunk b i) [] (bits_ne_NUL _ hcb)
    rw [hcopy]
    refine ⟨by rw [strlen, hc, hlen], by rw [hc]; exact hcb, ?_⟩
    intro out
    rw [binary_to_ascii_char_chunk table (chunk b i) out hlen hcb]
    cases table.find? (fun e => e.binary == chunk b i) with
    | none => exact Or.inr rfl
    | some e => exact Or.inl rfl
  · intro hfail
    cases halloc : A.malloc (n / 7 + 1) with
    | none => exact Or.inl rfl
    | some buf =>
      right
      rw [convert_binary_to_text_eq A table b n buf h7 hbits halloc, Option.map_eq_none',
        decode_chunks_eq_none_iff] at hfail
      obtain ⟨i, hi, hno⟩ := hfail
      rw [Nat.zero_add] at hno
      obtain ⟨hcopy, hlen, hcb⟩ := hchunk i hi
      refine ⟨i, hi, hno, ?_⟩
      intro out
      rw [hcopy, binary_to_ascii_char_chunk table (chunk b i) out hlen hcb,
        (find_binary_eq_none_iff table (chunk b i)).mpr hno]

/-- Witness for C16 (as amended): the 7-symbol string "1111111", which is not a code of the
sample table, decoded with an allocator that succeeds. -/
theorem C16_chunk_calls_never_invalid_witness :
    7 % 7 = 0 ∧
    is_valid_binary_string (some ['1', '1', '1', '1', '1', '1', '1']) 7 ≠ 0 ∧
    convert_binary_to_text sampleAllocator sampleTable
      (some ['1', '1', '1', '1', '1', '1', '1']) 7 = none ∧
    sampleAllocator.malloc (7 / 7 + 1) ≠ none ∧
    (sampleAllocator.malloc (7 / 7 + 1) = none ∨
      ∃ i, i < 7 / 7 ∧ ¬ HasCode sampleTable (chunk ['1', '1', '1', '1', '1', '1', '1'] i) ∧
        ∀ out : Char,
          binary_to_ascii_char sampleTable
            (some (strncpy (['1', '1', '1', '1', '1', '1', '1'].drop (i * 7)) 7 ++ [NUL]))
            (some out) = (ASCIIBIN_ERROR_NOT_FOUND, some out)) := by
  have hv : is_valid_binary_string (some ['1', '1', '1', '1', '1', '1', '1']) 7 ≠ 0 := by
    decide
  have hfail : convert_binary_to_text sampleAllocator sampleTable
      (some ['1', '1', '1', '1', '1', '1', '1']) 7 = none := by decide
  exact ⟨rfl, hv, hfail, by decide,
    (C16_chunk_calls_never_invalid sampleAllocator sampleTable
      ['1', '1', '1', '1', '1', '1', '1'] 7 rfl hv).2 hfail⟩

/-- Counterexample to C16 as stated: the 7-symbol string "1000001" passes the length check
and the validator and its only chunk is the code of 'A' in the sample table, yet
`convert_binary_to_text` returns the null pointer when the allocation fails; the failure
after validation does not mean that a chunk has no table entry. -/
theorem C16_counterexample_allocation_failure :
    7 % 7 = 0 ∧
    is_valid_binary_string (some ['1', '0', '0', '0', '0', '0', '1']) 7 ≠ 0 ∧
    (∀ i, i < 7 / 7 → HasCode sampleTable (chunk ['1', '0', '0', '0', '0', '0', '1'] i)) ∧
    convert_binary_to_text failingAllocator sampleTable
      (some ['1', '0', '0', '0', '0', '0', '1']) 7 = none := by
  refine ⟨rfl, by decide, ?_, by decide⟩
  intro i hi
  have h0 : i = 0 := by omega
  subst h0
  exact ⟨⟨['1', '0', '0', '0', '0', '0', '1'], 'A'⟩, by simp [sampleTable], by decide⟩

/-- C17: prefix dependence of decoding.  For every length `n` and every two binary strings
that agree on their first `n` symbols (whether or not they are as long as `n`),
`convert_binary_to_text` gives the same outcome on both (both null, or equal texts); in
particular symbols after a prefix of length `n` are never inspected, so replacing what follows
the first `n` symbols of a string of length at least `n` by garbage does not change the
result. -/
theorem C17_decoding_depends_on_first_symbols (A : Allocator) (table : List LookupEntry)
    (b1 b2 : List Char) (n : Nat) (hagree : b1.take n = b2.take n) :
    convert_binary_to_text A table (some b1) n = convert_binary_to_text A table (some b2) n ∧
    ∀ garbage : List Char, n ≤ b1.length →
      convert_binary_to_text A table (some (b1.take n ++ garbage)) n =
        convert_binary_to_text A table (some b1) n := by
  constructor
  · apply convert_binary_to_text_congr
    intro t ht
    rw [← getD_take_eq b1 n t ht, ← getD_take_eq b2 n t ht, hagree]
  · intro garbage h1
    apply convert_binary_to_text_congr
    intro t ht
    have hlt : t < (b1.take n).length := by
      rw [List.length_take]
      omega
    rw [List.getD_append _ _ _ _ hlt, getD_take_eq b1 n t ht]

/-- Witness for C17: the code of 'A' followed by two different tails. -/
theorem C17_decoding_depends_on_first_symbols_witness :
    7 ≤ ['1', '0', '0', '0', '0', '0', '1', 'x', 'y'].length ∧
    7 ≤ ['1', '0', '0', '0', '0', '0', '1', '2'].length ∧
    ['1', '0', '0', '0', '0', '0', '1', 'x', 'y'].take 7 =
      ['1', '0', '0', '0', '0', '0', '1', '2'].take 7 ∧
    convert_binary_to_text sampleAllocator sampleTable
        (some ['1', '0', '0', '0', '0', '0', '1', 'x', 'y']) 7 =
      convert_binary_to_text sampleAllocator sampleTable
        (some ['1', '0', '0', '0', '0', '0', '1', '2']) 7 ∧
    convert_binary_to_text sampleAllocator sampleTable
        (some ['1', '0', '0', '0', '0', '0', '1', 'x', 'y']) 7 = some ['A', NUL] :=
  ⟨by decide, by decide, rfl,
    (C17_decoding_depends_on_first_symbols sampleAllocator sampleTable
      ['1', '0', '0', '0', '0', '0', '1', 'x', 'y'] ['1', '0', '0', '0', '0', '0', '1', '2'] 7
      rfl).1, by decide⟩

theorem getD_of_chunks (xs : List Char) (t : Nat) :
    xs.getD t NUL = (chunk xs (t / 7)).getD (t % 7) NUL := by
  rw [chunk_getD xs (t / 7) (t % 7) (Nat.mod_lt t (by decide))]
  congr 1
  omega

theorem encode_decode_chunks (table : List LookupEntry) (hT : TableInvariant table)
    (b cs : List Char) (k : Nat) (hlen : 7 * k ≤ b.length)
    (hdec : decode_chunks table b k 0 = some cs) :
    encode_chars table (cs ++ [NUL]) k 0 = some (b.take (7 * k)) := by
  have hcl := decode_chunks_length table b k 0 cs hdec
  have hentry : ∀ j, j < k → ∃ e ∈ table, e.binary = chunk b j ∧
      table.find? (fun x => x.ascii == (cs ++ [NUL]).getD j NUL) = some e := by
    intro j hj
    obtain ⟨e, hf, hget⟩ := decode_chunks_getD table b k 0 cs hdec j hj
    rw [Nat.zero_add] at hf
    obtain ⟨hmem, hcode⟩ := find_binary_eq_some table _ e hf
    refine ⟨e, hmem, hcode, ?_⟩
    rw [List.getD_append _ _ _ _ (by omega), hget]
    exact find_ascii_of_mem table e hT.1 hmem
  cases henc : encode_chars table (cs ++ [NUL]) k 0 with
  | none =>
    obtain ⟨j, hj, hno⟩ := (encode_chars_eq_none_iff table _ k 0).mp henc
    rw [Nat.zero_add] at hno
    obtain ⟨e, hmem, _, hf⟩ := hentry j hj
    exact absurd ⟨e, hmem, (find_ascii_eq_some table _ e hf).2⟩ hno
  | some ds =>
    have hdl := encode_chars_length table _ k 0 ds henc
    congr 1
    apply eq_of_getD_eq ds (b.take (7 * k))
    · rw [hdl, List.length_take]
      omega
    · intro t ht
      rw [hdl] at ht
      rw [getD_take_eq b (7 * k) t ht, getD_of_chunks ds t, getD_of_chunks b t]
      have hj : t / 7 < k := by omega
      obtain ⟨e, hmem, hcode, hf⟩ := hentry (t / 7) hj
      obtain ⟨e2, hf2, hch⟩ := encode_chars_chunk table _ k 0 ds henc (t / 7) hj
      rw [Nat.zero_add, hf] at hf2
      rw [hch, ← Option.some.inj hf2, code_chunk_of_invariant table hT e hmem, hcode]

/-- C18 (as amended): reverse round trip.  For a table satisfying the data-model invariant,
a length `n` that is a `size_t`, and a binary string `b` on which
`convert_binary_to_text(b, n)` succeeds with a text whose `n / 7` characters contain no `NUL`,
`convert_text_to_binary` applied to that text, its allocation succeeding, stores the length
`n` and returns exactly the first `n` symbols of `b`, followed by the terminator. -/
theorem C18_reverse_round_trip (A : Allocator) (table : List LookupEntry) (b : List Char)
    (n : Nat) (t : List Char) (old : Nat) (buf : List Char) (hT : TableInvariant table)
    (hn : n ≤ SIZE_MAX) (hdec : convert_binary_to_text A table (some b) n = some t)
    (hnul : ∀ c ∈ t.take (n / 7), c ≠ NUL) (halloc : A.malloc (n + 1) = some buf) :
    convert_text_to_binary A table (some t) (some old) = (some (b.take n ++ [NUL]), some n) := by
  obtain ⟨h7, hbits, cs, hcs, rfl⟩ := convert_binary_to_text_success A table b n t hdec
  have hcl := decode_chunks_length table b (n / 7) 0 cs hcs
  have hn7 : 7 * (n / 7) = n := by omega
  have hcsnul : ∀ c ∈ cs, c ≠ NUL := by
    rw [← hcl, List.take_left'] at hnul
    · exact hnul
    · rfl
  have hstr : strlen (cs ++ [NUL]) = n / 7 := by
    rw [strlen, cstr_append_NUL cs [] hcsnul, hcl]
  have hguard : strlen (cs ++ [NUL]) ≤ SIZE_MAX / 7 := by
    rw [hstr]
    exact Nat.div_le_div_right hn
  have hconv := convert_text_to_binary_eq A table (cs ++ [NUL]) old buf hguard
    (by rw [hstr, hn7]; exact halloc)
  have hblen : 7 * (n / 7) ≤ b.length := by
    rw [hn7]
    exact length_ge_of_valid b n hbits
  rw [hstr, encode_decode_chunks table hT b cs (n / 7) hblen hcs, hn7] at hconv
  exact hconv

/-- Witness for C18: the 14-symbol string "10000100100001", the codes of 'B' and '!'. -/
theorem C18_reverse_round_trip_witness :
    TableInvariant sampleTable ∧ 14 ≤ SIZE_MAX ∧
    convert_binary_to_text sampleAllocator sampleTable
        (some ['1', '0', '0', '0', '0', '1', '0', '0', '1', '0', '0', '0', '0', '1']) 14 =
      some ['B', '!', NUL] ∧
    (∀ c ∈ ['B', '!', NUL].take (14 / 7), c ≠ NUL) ∧
    convert_text_to_binary sampleAllocator sampleTable (some ['B', '!', NUL]) (some 0) =
      (some (['1', '0', '0', '0', '0', '1', '0', '0', '1', '0', '0', '0', '0', '1'].take 14 ++
        [NUL]), some 14) := by
  have hn : 14 ≤ SIZE_MAX := by decide
  have hdec : convert_binary_to_text sampleAllocator sampleTable
      (some ['1', '0', '0', '0', '0', '1', '0', '0', '1', '0', '0', '0', '0', '1']) 14 =
      some ['B', '!', NUL] := by decide
  have hnul : ∀ c ∈ ['B', '!', NUL].take (14 / 7), c ≠ NUL := by decide
  exact ⟨sampleTable_invariant, hn, hdec, hnul,
    C18_reverse_round_trip sampleAllocator sampleTable _ 14 _ 0 (List.replicate 15 '?')
      sampleTable_invariant hn hdec hnul rfl⟩

/-- Counterexample to C18 as stated: with an allocator that serves at most 3 bytes, the
14-symbol string "10000100100001" is decoded to the `NUL`-free text "B!" under the sample
table, which satisfies the invariant, but `convert_text_to_binary` of that text returns the
null pointer and stores no length, because the allocation of its 15 bytes fails. -/
theorem C18_counterexample_allocation_failure :
    TableInvariant sampleTable ∧
    convert_binary_to_text smallAllocator sampleTable
        (some ['1', '0', '0', '0', '0', '1', '0', '0', '1', '0', '0', '0', '0', '1']) 14 =
      some ['B', '!', NUL] ∧
    (∀ c ∈ ['B', '!', NUL].take (14 / 7), c ≠ NUL) ∧
    convert_text_to_binary smallAllocator sampleTable (some ['B', '!', NUL]) (some 0) =
      (none, some 0) := by
  refine ⟨sampleTable_invariant, ?_, ?_, ?_⟩
  · decide
  · decide
  · decide

end ASCIIBIN
